import Mathlib

/-!
# A 32-bit RSA demonstration with truncated PKCS#1 v1.5 padding

Shallow embedding of `src/main.c`.  Unsigned machine integers are natural
numbers; every operation that can leave its C type carries an explicit
reduction modulo `2^32` or `2^64`.  Signed `int` values are integers, and the
places where the C code converts between `uint32_t` and `int` are spelled out
with `toInt32` / `toUInt32`.  Loops are structural recursions on a counter
that bounds the number of iterations; each such counter is the natural
termination measure of the corresponding C loop.
-/

namespace Rsa32

/-! ## Greatest common divisor (`gcd`, main.c 24-31) -/

/-- The `while (b != 0)` loop of `gcd`.  The first argument bounds the number
of iterations; `gcd` starts it at `b`, which strictly decreases on every
iteration because `a % b < b`. -/
def gcd_loop : Nat → Nat → Nat → Nat
  | 0, a, _ => a
  | fuel + 1, a, b =>
    if b ≠ 0 then
      let t := b
      let b := a % b
      let a := t
      gcd_loop fuel a b
    else a

/-- Function `uint32_t gcd(uint32_t a, uint32_t b)`. -/
def gcd (a b : Nat) : Nat := gcd_loop b a b

/-! ## Modular exponentiation (`pow_mod`, main.c 53-66) -/

/-- The `while (exp > 0)` loop of `pow_mod` on the `uint64_t` variables
`result` and `b`.  The products are formed in 64-bit arithmetic, hence the
reduction modulo `2^64` before `% mod`.  The first argument bounds the number
of iterations; `pow_mod` starts it at `exp`, and `exp >>= 1` strictly
decreases a positive `exp`. -/
def pow_mod_loop : Nat → Nat → Nat → Nat → Nat → Nat
  | 0, result, _, _, _ => result
  | fuel + 1, result, b, exp, mod =>
    if exp > 0 then
      let result := if exp &&& 1 ≠ 0 then (result * b) % 2 ^ 64 % mod else result
      let b := (b * b) % 2 ^ 64 % mod
      pow_mod_loop fuel result b (exp >>> 1) mod
    else result

/-- Function `uint32_t pow_mod(uint32_t base, uint32_t exp, uint32_t mod)`.
The result is the `uint64_t` accumulator cast to `uint32_t`.  A zero `mod` is a
division by zero in C; the model is only used with `mod > 0`. -/
def pow_mod (base exp mod : Nat) : Nat :=
  pow_mod_loop exp 1 (base % mod) exp mod % 2 ^ 32

/-! ## Miller-Rabin primality test (`miller_rabin`, main.c 69-104) -/

/-- The loop `while ((d & 1) == 0) { d >>= 1; s++; }`, returning the final
`(d, s)`.  The first argument bounds the number of iterations; `miller_rabin`
starts it at `d = n - 1 > 0`, and halving strictly decreases a positive `d`. -/
def decompose_loop : Nat → Nat → Nat → Nat × Nat
  | 0, d, s => (d, s)
  | fuel + 1, d, s =>
    if d &&& 1 = 0 then decompose_loop fuel (d >>> 1) (s + 1) else (d, s)

/-- The loop `for (int r = 1; r < s; r++)` with its `break`; the first
argument is the number of iterations still to run (`s - r`).  The result is
the final value of the flag `temoin`: `true` while no square equal to `n - 1`
has been met.  The product `x * x` is formed in `uint32_t`, hence the reduction
modulo `2^32` before `% n`. -/
def temoin_loop : Nat → Nat → Nat → Bool
  | 0, _, _ => true
  | iters + 1, x, n =>
    let x := (x * x) % 2 ^ 32 % n
    if x = n - 1 then false else temoin_loop iters x n

/-- The loop `for (int i = 0; i < k; i++)`; the first argument is the number
of rounds still to run (`k - i`) and `bytes i` is the value returned by the
call of `random_nonzero_byte` in round `i`. -/
def round_loop : Nat → Nat → Nat → Nat → Nat → (Nat → Nat) → Bool
  | 0, _, _, _, _, _ => true
  | left + 1, i, n, d, s, bytes =>
    let a := (2 + bytes i % (n - 3)) % 2 ^ 32
    let x := pow_mod a d n
    if x = 1 ∨ x = n - 1 then round_loop left (i + 1) n d s bytes
    else
      let temoin := temoin_loop (s - 1) x n
      if temoin then false else round_loop left (i + 1) n d s bytes

/-- Function `bool miller_rabin(uint32_t n, int k)`.  The random source is the
sequence `bytes` of the values that `random_nonzero_byte` returns during the
call, one per round. -/
def miller_rabin (n : Nat) (k : Int) (bytes : Nat → Nat) : Bool :=
  if n < 2 then false
  else if n = 2 ∨ n = 3 then true
  else if n &&& 1 = 0 then false
  else
    let ds := decompose_loop (n - 1) (n - 1) 0
    round_loop k.toNat 0 n ds.1 ds.2 bytes

/-! ## Extended Euclidean algorithm (`extended_euclidean`, main.c 107-121) -/

/-- Smallest value of the C type `int` (32 bits). -/
def INT_MIN : Int := -2 ^ 31

/-- Largest value of the C type `int` (32 bits). -/
def INT_MAX : Int := 2 ^ 31 - 1

/-- Whether an integer is a value of the C type `int`. -/
def in_int (x : Int) : Prop := INT_MIN ≤ x ∧ x ≤ INT_MAX

instance in_int_decidable (x : Int) : Decidable (in_int x) := by
  unfold in_int; infer_instance

/-- The recursion of `extended_euclidean` on `int` values, returning
`(d, u, v)` for the return value and the two output parameters.  The C
operators `/` and `%` truncate towards zero (`Int.tdiv`, `Int.tmod`).  The
result is `none` when a signed operation leaves the range of `int`:
`INT_MIN % -1`, the product `(a / b) * v1` or the difference
`u1 - (a / b) * v1`.  The first argument bounds the recursion depth;
`extended_euclidean` starts it at `|b|`, and `|a % b| < |b|`, so the bound
reaches zero only together with `b`. -/
def extended_euclidean_rec : Nat → Int → Int → Option (Int × Int × Int)
  | 0, a, _ => some (a, 1, 0)
  | fuel + 1, a, b =>
    if b = 0 then some (a, 1, 0)
    else if a = INT_MIN ∧ b = -1 then none
    else
      match extended_euclidean_rec fuel b (a.tmod b) with
      | none => none
      | some (d, u1, v1) =>
        let u := v1
        let prod := a.tdiv b * v1
        let v := u1 - prod
        if in_int prod ∧ in_int v then some (d, u, v) else none

/-- Function `int extended_euclidean(int a, int b, int *u, int *v)`. -/
def extended_euclidean (a b : Int) : Option (Int × Int × Int) :=
  extended_euclidean_rec b.natAbs a b

/-! ## Keys, encryption and decryption (main.c 8-21, 124-131) -/

/-- Struct `rsa_public_key`. -/
structure rsa_public_key where
  n : Nat
  e : Nat
deriving DecidableEq

/-- Struct `rsa_private_key`. -/
structure rsa_private_key where
  n : Nat
  d : Nat
deriving DecidableEq

/-- Struct `rsa_keys`; the fields `priv` and `pub` are the C members
`private` and `public`. -/
structure rsa_keys where
  priv : rsa_private_key
  pub : rsa_public_key
deriving DecidableEq

/-- Function `uint32_t rsa_encrypt(uint32_t m, rsa_public_key pb)`. -/
def rsa_encrypt (m : Nat) (pb : rsa_public_key) : Nat := pow_mod m pb.e pb.n

/-- Function `uint32_t rsa_decrypt(uint32_t c, rsa_private_key pv)`. -/
def rsa_decrypt (c : Nat) (pv : rsa_private_key) : Nat := pow_mod c pv.d pv.n

/-! ## Padding (main.c 167-188) -/

/-- Function `uint32_t padding(uint16_t m)`; `r` is the value returned by its
call of `random_nonzero_byte`. -/
def padding (m r : Nat) : Nat :=
  ((0x02 <<< 24) ||| (r <<< 16) ||| (0x00 <<< 8) ||| (m % 2 ^ 16)) % 2 ^ 32

/-- Function `bool unpadding(uint32_t eb, uint8_t *m)`.  The second argument
is the byte stored at `m` before the call; the result pairs the return value
with the byte stored at `m` after the call. -/
def unpadding (eb m : Nat) : Bool × Nat :=
  let bt := (eb >>> 24) &&& 0xFF
  let ps := (eb >>> 16) &&& 0xFF
  let zero_byte := (eb >>> 8) &&& 0xFF
  let d := eb &&& 0xFF
  if bt ≠ 0x02 then (false, m)
  else if ps = 0x00 then (false, m)
  else if zero_byte ≠ 0x00 then (false, m)
  else (true, d)

/-! ## Key generation (`generate_rsa_keys`, main.c 134-164) -/

/-- Conversion of a `uint32_t` value to `int` (two's complement). -/
def toInt32 (x : Nat) : Int :=
  if x % 2 ^ 32 < 2 ^ 31 then ((x % 2 ^ 32 : Nat) : Int) else ((x % 2 ^ 32 : Nat) : Int) - 2 ^ 32

/-- Conversion of an `int` value to `uint32_t`. -/
def toUInt32 (x : Int) : Nat := (x % 2 ^ 32).toNat

/-- One iteration of a prime search loop as seen from the random source: the
value returned by `random_16bits` and the values returned by
`random_nonzero_byte` while `miller_rabin` tests it. -/
structure Candidate where
  value : Nat
  bytes : Nat → Nat

/-- How a run of `generate_rsa_keys` on a finite supply of random draws ends. -/
inductive Run where
  | returned (keys : rsa_keys)
  | division_by_zero
  | signed_overflow
  | still_looping
deriving DecidableEq

/-- The loop `do { p = random_16bits(); } while (!miller_rabin(p, k));` with
`k = 5`, on the list of draws still to come; the result is `p` and the draws
left, or `none` when the draws run out before the loop exits. -/
def find_p : List Candidate → Option (Nat × List Candidate)
  | [] => none
  | c :: rest =>
    let p := c.value % 2 ^ 16
    if !miller_rabin p 5 c.bytes then find_p rest else some (p, rest)

/-- The loop `do { q = random_16bits(); } while (!miller_rabin(q, k) || q == p);`. -/
def find_q (p : Nat) : List Candidate → Option (Nat × List Candidate)
  | [] => none
  | c :: rest =>
    let q := c.value % 2 ^ 16
    if !miller_rabin q 5 c.bytes || q == p then find_q p rest else some (q, rest)

/-- How the exponent search of `generate_rsa_keys` ends on a finite supply of
values of `rand()`. -/
inductive Search where
  | found (e : Nat)
  | division_by_zero
  | still_looping
deriving DecidableEq

/-- The loop `do { e = 2 + rand() % (phi - 2); } while (gcd(e, phi) != 1);` on
the list of values of `rand()` still to come.  The operands of `%` are
`uint32_t`: `phi - 2` wraps below zero, and a zero divisor is a division by
zero. -/
def find_e (phi : Nat) : List Nat → Search
  | [] => Search.still_looping
  | r :: rest =>
    let m := (phi + 2 ^ 32 - 2) % 2 ^ 32
    if m = 0 then Search.division_by_zero
    else
      let e := (2 + r % 2 ^ 32 % m) % 2 ^ 32
      if gcd e phi ≠ 1 then find_e phi rest else Search.found e

/-- Function `void generate_rsa_keys(rsa_keys *keys)` on the draws of the
random sources: `cands` for the two prime searches and `rands` for `rand()`.
The products `p * q` and `(p - 1) * (q - 1)` are formed in `int` and stored in
`uint32_t` variables: the stored value is the product modulo `2^32`
(two's-complement wrap-around of the `int` product, then conversion).  The
arguments of `extended_euclidean` are the `uint32_t` values `e` and `phi`
converted to `int`.  The statement `d += phi` adds in `uint32_t` and converts
the sum back to `int32_t`. -/
def generate_rsa_keys (cands : List Candidate) (rands : List Nat) : Run :=
  match find_p cands with
  | none => Run.still_looping
  | some (p, cands) =>
    match find_q p cands with
    | none => Run.still_looping
    | some (q, _) =>
      let n := toUInt32 ((p : Int) * (q : Int))
      let phi := toUInt32 (((p : Int) - 1) * ((q : Int) - 1))
      match find_e phi rands with
      | Search.division_by_zero => Run.division_by_zero
      | Search.still_looping => Run.still_looping
      | Search.found e =>
        match extended_euclidean (toInt32 e) (toInt32 phi) with
        | none => Run.signed_overflow
        | some (_, u, _) =>
          if toInt32 phi = 0 then Run.division_by_zero
          else if u = INT_MIN ∧ toInt32 phi = -1 then Run.signed_overflow
          else
            let d := u.tmod (toInt32 phi)
            let d := if d < 0 then toInt32 (toUInt32 d + phi) else d
            Run.returned
              { pub := { n := n, e := e }, priv := { n := n, d := toUInt32 d } }

/-- The round trip of `main` on one payload byte `m`: `padding` with random byte
`r`, `rsa_encrypt` with the public key, `rsa_decrypt` with the private key and
`unpadding`.  The result is the return value of `unpadding` and the byte
stored at its output parameter, whose previous content is `m0`. -/
def round_trip (keys : rsa_keys) (m r m0 : Nat) : Bool × Nat :=
  let message := padding m r
  let cipher := rsa_encrypt message keys.pub
  let decrypted := rsa_decrypt cipher keys.priv
  unpadding decrypted m0

/-! ## Parts of the functions above, and their counterparts in exact arithmetic -/

/-- The witness `2 + random_nonzero_byte() % (n - 3)` that a round of
`miller_rabin` draws (main.c 86), for the byte `r` returned by
`random_nonzero_byte`. -/
def witness (n r : Nat) : Nat := (2 + r % (n - 3)) % 2 ^ 32

/-- The candidate `2 + rand() % (phi - 2)` of the exponent search (main.c 151),
for the value `r` returned by `rand()`, formed in `uint32_t`. -/
def exponent_candidate (phi r : Nat) : Nat :=
  (2 + r % 2 ^ 32 % ((phi + 2 ^ 32 - 2) % 2 ^ 32)) % 2 ^ 32

/-- The derivation of the private exponent in `generate_rsa_keys` (main.c
154-158 and 163) from the `uint32_t` values `e` and `phi`: the call of
`extended_euclidean`, `d = u % (int32_t)phi`, the correction `d += phi` when
`d < 0`, and the conversion of `d` to `uint32_t`.  The result is `none` when
`extended_euclidean` overflows or `u % (int32_t)phi` is undefined. -/
def private_exponent (e phi : Nat) : Option Nat :=
  match extended_euclidean (toInt32 e) (toInt32 phi) with
  | none => none
  | some (_, u, _) =>
    if toInt32 phi = 0 then none
    else if u = INT_MIN ∧ toInt32 phi = -1 then none
    else
      let d := u.tmod (toInt32 phi)
      let d := if d < 0 then toInt32 (toUInt32 d + phi) else d
      some (toUInt32 d)

/-- The loop of `pow_mod` carried out in exact integer arithmetic: the same
recursion as `pow_mod_loop` without the reductions modulo `2^64`. -/
def pow_mod_loop_exact : Nat → Nat → Nat → Nat → Nat → Nat
  | 0, result, _, _, _ => result
  | fuel + 1, result, b, exp, mod =>
    if exp > 0 then
      let result := if exp &&& 1 ≠ 0 then (result * b) % mod else result
      let b := (b * b) % mod
      pow_mod_loop_exact fuel result b (exp >>> 1) mod
    else result

/-- The function `pow_mod` in exact integer arithmetic, without the final cast. -/
def pow_mod_exact (base exp mod : Nat) : Nat :=
  pow_mod_loop_exact exp 1 (base % mod) exp mod

/-- The products `result * b` and `b * b` that the loop of `pow_mod` forms, in
the order of execution, as mathematical products of the values that the
variables hold. -/
def pow_mod_products : Nat → Nat → Nat → Nat → Nat → List Nat
  | 0, _, _, _, _ => []
  | fuel + 1, result, b, exp, mod =>
    if exp > 0 then
      let products := if exp &&& 1 ≠ 0 then [result * b] else []
      let result := if exp &&& 1 ≠ 0 then (result * b) % 2 ^ 64 % mod else result
      let b' := (b * b) % 2 ^ 64 % mod
      products ++ [b * b] ++ pow_mod_products fuel result b' (exp >>> 1) mod
    else []

/-- The recursion of `extended_euclidean` carried out over the unbounded
integers: the same recursion as `extended_euclidean_rec` without the range
checks. -/
def extended_euclidean_exact_rec : Nat → Int → Int → Int × Int × Int
  | 0, a, _ => (a, 1, 0)
  | fuel + 1, a, b =>
    if b = 0 then (a, 1, 0)
    else
      let r := extended_euclidean_exact_rec fuel b (a.tmod b)
      (r.1, r.2.2, r.2.1 - a.tdiv b * r.2.2)

/-- The function `extended_euclidean` over the unbounded integers. -/
def extended_euclidean_exact (a b : Int) : Int × Int × Int :=
  extended_euclidean_exact_rec b.natAbs a b

/-- The intermediate values `a % b`, `a / b`, `(a / b) * v1` and
`u1 - (a / b) * v1` of every level of the recursion, computed over the
unbounded integers. -/
def extended_euclidean_values : Nat → Int → Int → List Int
  | 0, _, _ => []
  | fuel + 1, a, b =>
    if b = 0 then []
    else
      let r := extended_euclidean_exact_rec fuel b (a.tmod b)
      [a.tmod b, a.tdiv b, a.tdiv b * r.2.2, r.2.1 - a.tdiv b * r.2.2]
        ++ extended_euclidean_values fuel b (a.tmod b)

/-- One round of `miller_rabin` on the byte `r`: the call with `k = 1` when
`random_nonzero_byte` returns `r`. -/
def round_passes (n r : Nat) : Bool := miller_rabin n 1 (fun _ => r)

/-- Number of the 255 nonzero byte values `1, ..., 255` on which a single round
of `miller_rabin` on `n` passes. -/
def passing_bytes (n : Nat) : Nat :=
  ((List.range 255).filter (fun r => round_passes n (r + 1))).length

/-- The sequence of nonzero bytes that `random_nonzero_byte` returns in `k`
rounds, from the choice `f i + 1` of one of the 255 values for each round. -/
def byte_sequence {k : Nat} (f : Fin k → Fin 255) : Nat → Nat :=
  fun i => if h : i < k then (f ⟨i, h⟩).val + 1 else 1

/-- The sequences of `k` nonzero bytes, among the `255 ^ k` possible ones, on
which `miller_rabin n k` returns true. -/
def accepted_sequences (n k : Nat) : Finset (Fin k → Fin 255) :=
  Finset.univ.filter (fun f => miller_rabin n (k : Int) (byte_sequence f) = true)

/-! ## Correctness of `gcd` -/

/-- The loop of `gcd` computes the greatest common divisor as soon as its
iteration bound is at least `b`. -/
theorem gcd_loop_eq (fuel : Nat) : ∀ a b : Nat, b ≤ fuel → gcd_loop fuel a b = Nat.gcd a b := by
  induction fuel with
  | zero =>
    intro a b hb
    have hb0 : b = 0 := by omega
    subst hb0
    simp [gcd_loop]
  | succ fuel ih =>
    intro a b hb
    by_cases h0 : b = 0
    · subst h0
      simp [gcd_loop]
    · have hlt : a % b < b := Nat.mod_lt _ (Nat.pos_of_ne_zero h0)
      have hrec : gcd_loop (fuel + 1) a b = gcd_loop fuel b (a % b) := by
        simp [gcd_loop, h0]
      rw [hrec, ih b (a % b) (by omega), Nat.gcd_comm a b, Nat.gcd_rec b a, Nat.gcd_comm]

/-- The function `gcd` agrees with `Nat.gcd`. -/
theorem gcd_eq (a b : Nat) : gcd a b = Nat.gcd a b := gcd_loop_eq b a b (Nat.le_refl b)

/-! ## Correctness of `pow_mod` -/

/-- Loop invariant of `pow_mod`: with a 32-bit accumulator and `b < mod ≤ 2^32`
no 64-bit product wraps, and for a positive exponent the loop returns
`result * b ^ exp mod mod`. -/
theorem pow_mod_loop_eq (mod : Nat) (hmod : mod ≤ 2 ^ 32) (fuel : Nat) :
    ∀ result b exp : Nat, exp ≤ fuel → 0 < exp → result < 2 ^ 32 → b < mod →
      pow_mod_loop fuel result b exp mod = (result * b ^ exp) % mod := by
  induction fuel with
  | zero => intro result b exp h1 h2; omega
  | succ fuel ih =>
    intro result b exp hfuel hexp hres hb
    have hb32 : b < 2 ^ 32 := lt_of_lt_of_le hb hmod
    have hmpos : 0 < mod := by omega
    have hrb : result * b < 2 ^ 64 := by
      calc result * b < 2 ^ 32 * 2 ^ 32 := Nat.mul_lt_mul_of_lt_of_lt hres hb32
        _ = 2 ^ 64 := by norm_num
    have hbb : b * b < 2 ^ 64 := by
      calc b * b < 2 ^ 32 * 2 ^ 32 := Nat.mul_lt_mul_of_lt_of_lt hb32 hb32
        _ = 2 ^ 64 := by norm_num
    have hstep : pow_mod_loop (fuel + 1) result b exp mod =
        pow_mod_loop fuel (if exp % 2 = 1 then (result * b) % mod else result)
          ((b * b) % mod) (exp / 2) mod := by
      simp only [pow_mod_loop, hexp, if_true, Nat.and_one_is_mod, Nat.shiftRight_eq_div_pow,
        pow_one]
      rw [Nat.mod_eq_of_lt hrb, Nat.mod_eq_of_lt hbb]
      rcases Nat.mod_two_eq_zero_or_one exp with h | h <;> simp [h]
    rw [hstep]
    have hres' : (if exp % 2 = 1 then (result * b) % mod else result) < 2 ^ 32 := by
      split
      · exact lt_of_lt_of_le (Nat.mod_lt _ hmpos) hmod
      · exact hres
    have hb' : (b * b) % mod < mod := Nat.mod_lt _ hmpos
    have hexp_eq : exp = 2 * (exp / 2) + exp % 2 := (Nat.div_add_mod exp 2).symm
    by_cases hhalf : exp / 2 = 0
    · have h1 : exp = 1 := by omega
      subst h1
      cases fuel <;> simp [pow_mod_loop]
    · rw [ih _ _ _ (by omega) (Nat.pos_of_ne_zero hhalf) hres' hb']
      have hpow : b ^ exp = b ^ (exp % 2) * (b * b) ^ (exp / 2) := by
        conv_lhs => rw [hexp_eq]
        rw [pow_add, pow_mul, mul_comm, pow_two]
      rw [hpow]
      have hsq : (b * b % mod) ^ (exp / 2) ≡ (b * b) ^ (exp / 2) [MOD mod] :=
        (Nat.mod_modEq _ _).pow _
      rcases Nat.mod_two_eq_zero_or_one exp with h | h
      · simp only [h, pow_zero, one_mul]
        exact Nat.ModEq.mul_left _ hsq
      · simp only [h, if_true, pow_one]
        rw [← mul_assoc]
        exact Nat.ModEq.mul (Nat.mod_modEq _ _) hsq

/-- Correctness of `pow_mod` for a 32-bit modulus, outside the case of modulus
one with exponent zero. -/
theorem pow_mod_eq (base exp mod : Nat) (hmod : 0 < mod) (h32 : mod < 2 ^ 32)
    (h : 2 ≤ mod ∨ 0 < exp) : pow_mod base exp mod = base ^ exp % mod := by
  unfold pow_mod
  by_cases hexp : exp = 0
  · subst hexp
    have h2 : 2 ≤ mod := by omega
    simp [pow_mod_loop]
    rw [Nat.mod_eq_of_lt (by omega : 1 < mod)]
  · rw [pow_mod_loop_eq mod (by omega) exp 1 (base % mod) exp (Nat.le_refl _)
      (Nat.pos_of_ne_zero hexp) (by norm_num) (Nat.mod_lt _ hmod)]
    rw [Nat.one_mul, ← Nat.pow_mod]
    exact Nat.mod_eq_of_lt (lt_trans (Nat.mod_lt _ hmod) h32)

/-! ## Miller-Rabin: primes are accepted when the squaring does not overflow -/

/-- The decomposition loop returns an odd `d` and adds to `s` the exponent of
the power of two it has removed. -/
theorem decompose_loop_spec (fuel : Nat) :
    ∀ d s : Nat, 0 < d → d ≤ fuel →
      (decompose_loop fuel d s).1 % 2 = 1 ∧
      ∃ t, (decompose_loop fuel d s).2 = s + t ∧ d = (decompose_loop fuel d s).1 * 2 ^ t := by
  induction fuel with
  | zero => intro d s h1 h2; omega
  | succ fuel ih =>
    intro d s hd hfuel
    rcases Nat.mod_two_eq_zero_or_one d with h | h
    · have hstep : decompose_loop (fuel + 1) d s = decompose_loop fuel (d / 2) (s + 1) := by
        simp [decompose_loop, h, Nat.shiftRight_eq_div_pow]
      rw [hstep]
      obtain ⟨h1, t, h2, h3⟩ := ih (d / 2) (s + 1) (by omega) (by omega)
      refine ⟨h1, t + 1, by omega, ?_⟩
      have hd2 : d = 2 * (d / 2) := by omega
      rw [pow_succ, ← mul_assoc, ← h3]
      omega
    · have hstep : decompose_loop (fuel + 1) d s = (d, s) := by
        simp [decompose_loop, h]
      rw [hstep]
      exact ⟨h, 0, by simp, by simp⟩

/-- For `n ≤ 2^16` the 32-bit square does not wrap, and the squaring loop clears
`temoin` when one of the squares it forms is `n - 1`. -/
theorem temoin_loop_false (n : Nat) (hn : n ≤ 2 ^ 16) (iters : Nat) :
    ∀ x : Nat, x < n → (∃ j, 1 ≤ j ∧ j ≤ iters ∧ x ^ 2 ^ j % n = n - 1) →
      temoin_loop iters x n = false := by
  induction iters with
  | zero => rintro x _ ⟨j, h1, h2, _⟩; omega
  | succ iters ih =>
    rintro x hx ⟨j, hj1, hj2, hj⟩
    have hx16 : x < 2 ^ 16 := lt_of_lt_of_le hx hn
    have hxx : x * x < 2 ^ 32 := by
      calc x * x < 2 ^ 16 * 2 ^ 16 := Nat.mul_lt_mul_of_lt_of_lt hx16 hx16
        _ = 2 ^ 32 := by norm_num
    have hstep : temoin_loop (iters + 1) x n =
        if x * x % n = n - 1 then false else temoin_loop iters (x * x % n) n := by
      simp only [temoin_loop]
      rw [Nat.mod_eq_of_lt hxx]
    rw [hstep]
    by_cases hsq : x * x % n = n - 1
    · simp [hsq]
    · rw [if_neg hsq]
      have hj2' : 2 ≤ j := by
        rcases Nat.lt_or_ge j 2 with h | h
        · have : j = 1 := by omega
          subst this
          rw [pow_one, pow_two] at hj
          exact absurd hj hsq
        · exact h
      refine ih (x * x % n) (Nat.mod_lt _ (by omega)) ⟨j - 1, by omega, by omega, ?_⟩
      have hjj : j = (j - 1) + 1 := by omega
      rw [← Nat.pow_mod, ← pow_two, ← pow_mul, ← pow_succ', ← hjj]
      exact hj

/-- In a field, an element whose `2^s`-th power is one is one, or one of its
earlier iterated squares is minus one. -/
theorem sq_chain {F : Type} [Field F] (y : F) :
    ∀ s : Nat, y ^ 2 ^ s = 1 → y = 1 ∨ ∃ j, j < s ∧ y ^ 2 ^ j = -1 := by
  intro s
  induction s with
  | zero => intro h; left; simpa using h
  | succ s ih =>
    intro h
    rw [pow_succ, pow_mul, pow_two] at h
    rcases mul_self_eq_one_iff.mp h with h1 | h1
    · rcases ih h1 with h2 | ⟨j, hj, h2⟩
      · exact Or.inl h2
      · exact Or.inr ⟨j, by omega, h2⟩
    · exact Or.inr ⟨s, by omega, h1⟩

/-- A prime `n` with `n - 1 = d * 2^s` is a strong probable prime to every base
it does not divide. -/
theorem prime_strong_probable (n d s a : Nat) (hp : n.Prime) (hds : n - 1 = d * 2 ^ s)
    (ha : ¬ n ∣ a) :
    a ^ d % n = 1 ∨ ∃ j, j < s ∧ (a ^ d % n) ^ 2 ^ j % n = n - 1 := by
  haveI : Fact n.Prime := ⟨hp⟩
  have hn2 : 2 ≤ n := hp.two_le
  have ha0 : (a : ZMod n) ≠ 0 := by
    rwa [Ne, ZMod.natCast_zmod_eq_zero_iff_dvd]
  have hfermat : ((a : ZMod n) ^ d) ^ 2 ^ s = 1 := by
    rw [← pow_mul, ← hds]
    exact ZMod.pow_card_sub_one_eq_one ha0
  have hneg : ((n - 1 : Nat) : ZMod n) = -1 := by
    rw [Nat.cast_sub (by omega), ZMod.natCast_self]
    simp
  rcases sq_chain _ s hfermat with h | ⟨j, hj, h⟩
  · left
    have h' : ((a ^ d : Nat) : ZMod n) = ((1 : Nat) : ZMod n) := by
      rw [Nat.cast_pow, Nat.cast_one]; exact h
    rw [ZMod.natCast_eq_natCast_iff'] at h'
    rw [h', Nat.mod_eq_of_lt (by omega)]
  · right
    refine ⟨j, hj, ?_⟩
    have h' : (((a ^ d) ^ 2 ^ j : Nat) : ZMod n) = ((n - 1 : Nat) : ZMod n) := by
      rw [Nat.cast_pow, Nat.cast_pow, hneg]; exact h
    rw [ZMod.natCast_eq_natCast_iff'] at h'
    rw [← Nat.pow_mod, h', Nat.mod_eq_of_lt (by omega)]

/-- Every round passes on a prime `n` with `5 ≤ n ≤ 2^16`. -/
theorem round_loop_prime (n d s : Nat) (bytes : Nat → Nat) (hp : n.Prime) (h5 : 5 ≤ n)
    (hn : n ≤ 2 ^ 16) (hds : n - 1 = d * 2 ^ s) (left : Nat) :
    ∀ i : Nat, round_loop left i n d s bytes = true := by
  induction left with
  | zero => intro i; simp [round_loop]
  | succ left ih =>
    intro i
    have hlt : bytes i % (n - 3) < n - 3 := Nat.mod_lt _ (by omega)
    have ha : (2 + bytes i % (n - 3)) % 2 ^ 32 = 2 + bytes i % (n - 3) :=
      Nat.mod_eq_of_lt (by
        have h16 : (2 : Nat) ^ 16 < 2 ^ 32 := by norm_num
        omega)
    have hndvd : ¬ n ∣ 2 + bytes i % (n - 3) := by
      intro hdvd
      have := Nat.le_of_dvd (by omega) hdvd
      omega
    have h32 : n < 2 ^ 32 := lt_of_le_of_lt hn (by norm_num)
    have hx : pow_mod (2 + bytes i % (n - 3)) d n = (2 + bytes i % (n - 3)) ^ d % n :=
      pow_mod_eq _ _ _ (by omega) h32 (Or.inl (by omega))
    simp only [round_loop]
    rw [ha, hx]
    by_cases h1 : (2 + bytes i % (n - 3)) ^ d % n = 1 ∨ (2 + bytes i % (n - 3)) ^ d % n = n - 1
    · rw [if_pos h1]; exact ih (i + 1)
    · rw [if_neg h1]
      have hxn : (2 + bytes i % (n - 3)) ^ d % n < n := Nat.mod_lt _ (by omega)
      rcases prime_strong_probable n d s _ hp hds hndvd with h | ⟨j, hj, h⟩
      · exact absurd (Or.inl h) h1
      · have hj0 : j ≠ 0 := by
          intro h0
          subst h0
          rw [pow_zero, pow_one, Nat.mod_eq_of_lt hxn] at h
          exact h1 (Or.inr h)
        have ht : temoin_loop (s - 1) ((2 + bytes i % (n - 3)) ^ d % n) n = false :=
          temoin_loop_false n hn (s - 1) _ hxn ⟨j, by omega, by omega, h⟩
        rw [ht]
        simpa using ih (i + 1)

/-- The test accepts every prime up to `2^16`, for every round count and every
sequence of bytes. -/
theorem miller_rabin_prime_small (n : Nat) (k : Int) (bytes : Nat → Nat) (hp : n.Prime)
    (hn : n ≤ 2 ^ 16) : miller_rabin n k bytes = true := by
  have h2 : 2 ≤ n := hp.two_le
  unfold miller_rabin
  rw [if_neg (by omega)]
  by_cases h23 : n = 2 ∨ n = 3
  · rw [if_pos h23]
  · rw [if_neg h23]
    have hodd : n % 2 = 1 := by
      rcases hp.eq_two_or_odd with h | h
      · omega
      · exact h
    have h5 : 5 ≤ n := by
      rcases Nat.lt_or_ge n 5 with h | h
      · have h4 : n = 4 := by omega
        omega
      · exact h
    rw [if_neg (by rw [Nat.and_one_is_mod]; omega)]
    obtain ⟨_, t, ht, hdt⟩ := decompose_loop_spec (n - 1) (n - 1) 0 (by omega) (Nat.le_refl _)
    rw [Nat.zero_add] at ht
    rw [← ht] at hdt
    exact round_loop_prime n _ _ bytes hp h5 hn hdt k.toNat 0

/-! ## Extended Euclid: Bézout identity and absence of overflow -/

/-- Absolute value of the truncating remainder. -/
theorem natAbs_tmod (a b : Int) : (a.tmod b).natAbs = a.natAbs % b.natAbs := by
  cases a <;> cases b <;> simp [Int.tmod, Int.natAbs_neg] <;> rfl

/-- Base case of the recursion. -/
theorem extended_euclidean_rec_zero (fuel : Nat) (a : Int) :
    extended_euclidean_rec fuel a 0 = some (a, 1, 0) := by
  cases fuel <;> simp [extended_euclidean_rec]

/-- Recursive case of the recursion. -/
theorem extended_euclidean_rec_succ (fuel : Nat) (a b : Int) (hb : b ≠ 0)
    (hmin : ¬ (a = INT_MIN ∧ b = -1)) :
    extended_euclidean_rec (fuel + 1) a b =
      match extended_euclidean_rec fuel b (a.tmod b) with
      | none => none
      | some (d, u1, v1) =>
        if in_int (a.tdiv b * v1) ∧ in_int (u1 - a.tdiv b * v1)
        then some (d, v1, u1 - a.tdiv b * v1) else none := by
  rw [extended_euclidean_rec, if_neg hb, if_neg hmin]

/-- Integers of absolute value at most `2^31 - 1` are values of `int`. -/
theorem in_int_of_natAbs_le (x : Int) (h : x.natAbs ≤ 2 ^ 31 - 1) : in_int x := by
  unfold in_int INT_MIN INT_MAX
  omega

/-- Invariant of the recursion for nonzero arguments of absolute value at most
`2^31 - 1`: no overflow, the Bézout identity, `|u| ≤ |b|`, `|v| ≤ |a|`, the
absolute value of the result is the gcd, and the result is nonnegative for
nonnegative arguments. -/
theorem extended_euclidean_rec_spec (fuel : Nat) :
    ∀ a b : Int, b.natAbs ≤ fuel → a ≠ 0 → b ≠ 0 →
      a.natAbs ≤ 2 ^ 31 - 1 → b.natAbs ≤ 2 ^ 31 - 1 →
      ∃ g u v : Int, extended_euclidean_rec fuel a b = some (g, u, v) ∧
        a * u + b * v = g ∧ u.natAbs ≤ b.natAbs ∧ v.natAbs ≤ a.natAbs ∧
        g.natAbs = Nat.gcd a.natAbs b.natAbs ∧ (0 ≤ a → 0 ≤ b → 0 ≤ g) := by
  induction fuel with
  | zero => intro a b h1 _ h3; omega
  | succ fuel ih =>
    intro a b hfuel ha hb hamax hbmax
    have hbpos : 0 < b.natAbs := Int.natAbs_pos.mpr hb
    have hapos : 0 < a.natAbs := Int.natAbs_pos.mpr ha
    have hmin : ¬ (a = INT_MIN ∧ b = -1) := by
      rintro ⟨h, _⟩
      rw [h] at hamax
      simp [INT_MIN] at hamax
    have hdiv : b * a.tdiv b + a.tmod b = a := Int.tdiv_add_tmod a b
    have hq : (a.tdiv b).natAbs = a.natAbs / b.natAbs := Int.natAbs_tdiv a b
    have hr : (a.tmod b).natAbs = a.natAbs % b.natAbs := natAbs_tmod a b
    have hsplit : b.natAbs * (a.natAbs / b.natAbs) + a.natAbs % b.natAbs = a.natAbs :=
      Nat.div_add_mod _ _
    by_cases hr0 : a.tmod b = 0
    · refine ⟨b, 0, 1, ?_, by ring, by simp, by omega, ?_, fun _ h => h⟩
      · rw [extended_euclidean_rec_succ fuel a b hb hmin, hr0, extended_euclidean_rec_zero]
        simp [in_int, INT_MIN, INT_MAX]
      · rw [hr0] at hr
        have hdvd : b.natAbs ∣ a.natAbs := Nat.dvd_of_mod_eq_zero (by simpa using hr.symm)
        exact (Nat.gcd_eq_right hdvd).symm
    · have hrlt : (a.tmod b).natAbs < b.natAbs := by rw [hr]; exact Nat.mod_lt _ hbpos
      obtain ⟨g, u1, v1, hrec, hbez, hu1, hv1, hg, hsign⟩ :=
        ih b (a.tmod b) (by omega) hb hr0 hbmax (by omega)
      have hprod : (a.tdiv b * v1).natAbs ≤ b.natAbs * (a.natAbs / b.natAbs) := by
        rw [Int.natAbs_mul, hq, Nat.mul_comm]
        exact Nat.mul_le_mul_right _ hv1
      have hv : (u1 - a.tdiv b * v1).natAbs ≤ a.natAbs := by
        have := Int.natAbs_sub_le u1 (a.tdiv b * v1)
        omega
      refine ⟨g, v1, u1 - a.tdiv b * v1, ?_, ?_, hv1, hv, ?_, ?_⟩
      · have h1 : in_int (a.tdiv b * v1) := in_int_of_natAbs_le _ (by omega)
        have h2 : in_int (u1 - a.tdiv b * v1) := in_int_of_natAbs_le _ (by omega)
        rw [extended_euclidean_rec_succ fuel a b hb hmin, hrec]
        simp [h1, h2]
      · have : a * v1 + b * (u1 - a.tdiv b * v1)
            = b * u1 + (a - b * a.tdiv b) * v1 := by ring
        rw [this, ← hbez]
        congr 2
        omega
      · rw [hg, hr, Nat.gcd_comm a.natAbs, Nat.gcd_rec b.natAbs a.natAbs, Nat.gcd_comm]
      · intro h0a h0b
        exact hsign h0b (Int.tmod_nonneg b h0a)

/-- One more step of the recursion, allowing `|a| = 2^31` when `b ≠ -1`. -/
theorem extended_euclidean_rec_wide (fuel : Nat) (a b : Int) (hfuel : b.natAbs ≤ fuel + 1)
    (hb : b ≠ 0) (hb1 : b ≠ -1)
    (hamax : a.natAbs ≤ 2 ^ 31) (hbmax : b.natAbs ≤ 2 ^ 31 - 1) :
    ∃ g u v : Int, extended_euclidean_rec (fuel + 1) a b = some (g, u, v) ∧
      a * u + b * v = g ∧ in_int u ∧ in_int v ∧
      g.natAbs = Nat.gcd a.natAbs b.natAbs := by
  have hbpos : 0 < b.natAbs := Int.natAbs_pos.mpr hb
  have hmin : ¬ (a = INT_MIN ∧ b = -1) := fun h => hb1 h.2
  have hdiv : b * a.tdiv b + a.tmod b = a := Int.tdiv_add_tmod _ b
  have hq : (a.tdiv b).natAbs = a.natAbs / b.natAbs := Int.natAbs_tdiv _ b
  have hr : (a.tmod b).natAbs = a.natAbs % b.natAbs := natAbs_tmod _ b
  have hsplit : b.natAbs * (a.natAbs / b.natAbs) + a.natAbs % b.natAbs = a.natAbs :=
    Nat.div_add_mod _ _
  have h01 : in_int 0 ∧ in_int 1 := by decide
  by_cases hr0 : a.tmod b = 0
  · refine ⟨b, 0, 1, ?_, by ring, h01.1, h01.2, ?_⟩
    · rw [extended_euclidean_rec_succ fuel _ b hb hmin, hr0, extended_euclidean_rec_zero]
      simp [h01.1, h01.2]
    · rw [hr0] at hr
      have hdvd : b.natAbs ∣ a.natAbs := Nat.dvd_of_mod_eq_zero (by simpa using hr.symm)
      exact (Nat.gcd_eq_right hdvd).symm
  · have hrpos : 0 < (a.tmod b).natAbs := Int.natAbs_pos.mpr hr0
    have hrlt : (a.tmod b).natAbs < b.natAbs := by rw [hr]; exact Nat.mod_lt _ hbpos
    obtain ⟨g, u1, v1, hrec, hbez, hu1, hv1, hg, _⟩ :=
      extended_euclidean_rec_spec fuel b (a.tmod b) (by omega) hb hr0 hbmax (by omega)
    have hprod : (a.tdiv b * v1).natAbs ≤ b.natAbs * (a.natAbs / b.natAbs) := by
      rw [Int.natAbs_mul, hq, Nat.mul_comm]
      exact Nat.mul_le_mul_right _ hv1
    have hv : (u1 - a.tdiv b * v1).natAbs ≤ a.natAbs := by
      have := Int.natAbs_sub_le u1 (a.tdiv b * v1)
      omega
    have htop : a * v1 + b * (u1 - a.tdiv b * v1) = g := by
      have : a * v1 + b * (u1 - a.tdiv b * v1)
          = b * u1 + (a - b * a.tdiv b) * v1 := by ring
      rw [this, ← hbez]
      congr 2
      omega
    have hgpos : 0 < g.natAbs := by
      rw [hg]; exact Nat.gcd_pos_of_pos_left _ hbpos
    have hgle : g.natAbs ≤ b.natAbs := by
      rw [hg]; exact Nat.gcd_le_left _ hbpos
    have hvne : u1 - a.tdiv b * v1 ≠ 2 ^ 31 := by
      intro hv31
      rw [hv31] at hv htop
      have ha31 : a = 2 ^ 31 ∨ a = -2 ^ 31 := by omega
      have hdvd : (2 ^ 31 : Int) ∣ g := by
        rcases ha31 with h | h
        · exact ⟨v1 + b, by rw [← htop, h]; ring⟩
        · exact ⟨b - v1, by rw [← htop, h]; ring⟩
      have hdvd' : (2 ^ 31 : Nat) ∣ g.natAbs := by
        have := Int.natAbs_dvd_natAbs.mpr hdvd
        simpa using this
      have := Nat.le_of_dvd hgpos hdvd'
      omega
    have h1 : in_int (a.tdiv b * v1) := in_int_of_natAbs_le _ (by omega)
    have h2 : in_int (u1 - a.tdiv b * v1) := by
      unfold in_int INT_MIN INT_MAX
      omega
    refine ⟨g, v1, u1 - a.tdiv b * v1, ?_, htop, in_int_of_natAbs_le _ (by omega), h2, ?_⟩
    · rw [extended_euclidean_rec_succ fuel _ b hb hmin, hrec]
      simp [h1, h2]
    · rw [hg, hr, Nat.gcd_comm a.natAbs, Nat.gcd_rec b.natAbs a.natAbs, Nat.gcd_comm]

/-- The function `extended_euclidean` on nonzero `int` arguments, the pairs
`(INT_MIN, -1)` and `(-1, INT_MIN)` excepted. -/
theorem extended_euclidean_spec (a b : Int) (ha : in_int a) (hb : in_int b)
    (ha0 : a ≠ 0) (hb0 : b ≠ 0)
    (hbad : ¬ (a = INT_MIN ∧ b = -1) ∧ ¬ (a = -1 ∧ b = INT_MIN)) :
    ∃ g u v : Int, extended_euclidean a b = some (g, u, v) ∧
      a * u + b * v = g ∧ in_int u ∧ in_int v ∧
      g.natAbs = Int.gcd a b ∧ (0 < a → 0 < b → g = Int.gcd a b) := by
  unfold extended_euclidean
  have hbpos : 0 < b.natAbs := Int.natAbs_pos.mpr hb0
  have hapos : 0 < a.natAbs := Int.natAbs_pos.mpr ha0
  have hale : a.natAbs ≤ 2 ^ 31 := by
    unfold in_int INT_MIN INT_MAX at ha
    omega
  obtain ⟨k, hk⟩ : ∃ k, b.natAbs = k + 1 := ⟨b.natAbs - 1, by omega⟩
  by_cases hbmin : b = INT_MIN
  · by_cases hamin : a = INT_MIN
    · subst hamin hbmin
      refine ⟨INT_MIN, 0, 1, by decide, by ring, by decide, by decide, by decide, ?_⟩
      intro h; exact absurd h (by decide)
    · have ha1 : a ≠ -1 := fun h => hbad.2 ⟨h, hbmin⟩
      have hamax : a.natAbs ≤ 2 ^ 31 - 1 := by
        unfold in_int INT_MIN INT_MAX at ha
        simp only [INT_MIN] at hamin
        omega
      subst hbmin
      have hfuel : INT_MIN.natAbs = (2 ^ 31 - 2) + 1 + 1 := by simp [INT_MIN]
      have hq : a.tdiv INT_MIN = 0 := by
        apply Int.natAbs_eq_zero.mp
        rw [Int.natAbs_tdiv]
        exact Nat.div_eq_of_lt (by simp [INT_MIN]; omega)
      have hr : a.tmod INT_MIN = a := by
        rw [Int.tmod_def, hq]; simp
      obtain ⟨g, u, v, h1, h2, h3, h4, h5⟩ :=
        extended_euclidean_rec_wide (2 ^ 31 - 2) INT_MIN a (by omega) ha0 ha1
          (by simp [INT_MIN]) hamax
      have h0 : in_int 0 := by decide
      refine ⟨g, v, u, ?_, by rw [← h2]; ring, h4, h3, ?_, ?_⟩
      · rw [hfuel, extended_euclidean_rec_succ _ a INT_MIN hb0 (fun h => hamin h.1), hr, h1,
          hq]
        simp [h3, h0]
      · rw [h5, Int.gcd_def, Nat.gcd_comm]
      · intro _ h; exact absurd h (by decide)
  · have hb1 : a = INT_MIN → b ≠ -1 := fun h1 h2 => hbad.1 ⟨h1, h2⟩
    have hbmax : b.natAbs ≤ 2 ^ 31 - 1 := by
      unfold in_int INT_MIN INT_MAX at hb
      simp only [INT_MIN] at hbmin
      omega
    by_cases hamin : a = INT_MIN
    · rw [hk]
      obtain ⟨g, u, v, h1, h2, h3, h4, h5⟩ :=
        extended_euclidean_rec_wide k a b (by omega) hb0 (hb1 hamin) hale hbmax
      refine ⟨g, u, v, h1, h2, h3, h4, by rw [h5, Int.gcd_def], ?_⟩
      intro h; rw [hamin] at h; exact absurd h (by decide)
    · have hamax : a.natAbs ≤ 2 ^ 31 - 1 := by
        unfold in_int INT_MIN INT_MAX at ha
        simp only [INT_MIN] at hamin
        omega
      obtain ⟨g, u, v, h1, h2, h3, h4, h5, h6⟩ :=
        extended_euclidean_rec_spec b.natAbs a b (Nat.le_refl _) ha0 hb0 hamax hbmax
      refine ⟨g, u, v, h1, h2, in_int_of_natAbs_le _ (by omega),
        in_int_of_natAbs_le _ (by omega), by rw [h5, Int.gcd_def], ?_⟩
      intro hpa hpb
      have hg0 : 0 ≤ g := h6 (le_of_lt hpa) (le_of_lt hpb)
      rw [Int.gcd_def, ← h5]
      exact (Int.natAbs_of_nonneg hg0).symm

/-! ## Padding and unpadding -/

/-- Masking with `0xFF` is reduction modulo 256. -/
theorem and_255 (x : Nat) : x &&& 0xFF = x % 256 := Nat.and_pow_two_sub_one_eq_mod x 8

/-- The fields assembled by `padding` do not overlap. -/
theorem padding_eq (m r : Nat) (hm : m < 2 ^ 16) (hr : r < 2 ^ 8) :
    padding m r = 0x02000000 + r * 65536 + m := by
  unfold padding
  have h0 : (0x00 <<< 8 : Nat) = 0 := by decide
  have h2 : (0x02 <<< 24 : Nat) = 2 ^ 24 * 2 := by decide
  have hr16 : r <<< 16 = r * 65536 := by rw [Nat.shiftLeft_eq]
  have hlt1 : r * 65536 < 2 ^ 24 := by omega
  have hor1 : 2 ^ 24 * 2 ||| r * 65536 = 2 ^ 16 * (512 + r) := by
    rw [← Nat.mul_add_lt_is_or hlt1 2]
    omega
  have hor2 : 2 ^ 16 * (512 + r) ||| m = 2 ^ 16 * (512 + r) + m :=
    (Nat.mul_add_lt_is_or hm (512 + r)).symm
  rw [h0, h2, hr16, hor1, Nat.or_zero, Nat.mod_eq_of_lt hm, hor2]
  omega

/-- The three tests of `unpadding` in terms of the bytes of the block. -/
theorem unpadding_eq (eb m : Nat) :
    unpadding eb m =
      if eb / 2 ^ 24 % 256 ≠ 2 ∨ eb / 2 ^ 16 % 256 = 0 ∨ eb / 2 ^ 8 % 256 ≠ 0
      then (false, m) else (true, eb % 256) := by
  unfold unpadding
  simp only [and_255, Nat.shiftRight_eq_div_pow]
  by_cases h1 : eb / 2 ^ 24 % 256 = 2
  · by_cases h2 : eb / 2 ^ 16 % 256 = 0
    · simp only [h1, h2, ne_eq, not_true_eq_false, if_false, if_true, or_true, true_or]
    · by_cases h3 : eb / 2 ^ 8 % 256 = 0
      · simp only [h1, h2, h3, ne_eq, not_true_eq_false, if_false, or_self]
      · simp only [h1, h2, h3, ne_eq, not_true_eq_false, not_false_eq_true, if_false, if_true,
          or_true]
  · simp only [h1, ne_eq, not_false_eq_true, if_true, true_or]

/-! ## Miller-Rabin: trivial cases and witness selection -/

/-- A round of `round_loop` draws its witness with `witness`. -/
theorem round_loop_succ (left i n d s : Nat) (bytes : Nat → Nat) :
    round_loop (left + 1) i n d s bytes =
      if pow_mod (witness n (bytes i)) d n = 1 ∨ pow_mod (witness n (bytes i)) d n = n - 1
      then round_loop left (i + 1) n d s bytes
      else if temoin_loop (s - 1) (pow_mod (witness n (bytes i)) d n) n then false
      else round_loop left (i + 1) n d s bytes := rfl

/-- An odd `n ≥ 5` passes the three early tests of `miller_rabin` and reaches
the round loop. -/
theorem miller_rabin_reaches_rounds (n : Nat) (k : Int) (bytes : Nat → Nat) (h5 : 5 ≤ n)
    (hodd : n % 2 = 1) :
    miller_rabin n k bytes =
      round_loop k.toNat 0 n (decompose_loop (n - 1) (n - 1) 0).1
        (decompose_loop (n - 1) (n - 1) 0).2 bytes := by
  unfold miller_rabin
  rw [if_neg (by omega), if_neg (by omega), if_neg (by rw [Nat.and_one_is_mod]; omega)]

/-- Bounds of the witness for `n ≥ 5`. -/
theorem witness_bounds (n r : Nat) (h5 : 5 ≤ n) (h32 : n < 2 ^ 32) :
    witness n r = 2 + r % (n - 3) ∧ 2 ≤ witness n r ∧ witness n r ≤ n - 2 := by
  have hlt : r % (n - 3) < n - 3 := Nat.mod_lt _ (by omega)
  have hw : witness n r = 2 + r % (n - 3) := by
    unfold witness
    exact Nat.mod_eq_of_lt (by omega)
  rw [hw]
  omega

/-! ## Key generation -/

/-- The exponent search tests `exponent_candidate` on each value of `rand()`. -/
theorem find_e_cons (phi r : Nat) (rest : List Nat) :
    find_e phi (r :: rest) =
      if (phi + 2 ^ 32 - 2) % 2 ^ 32 = 0 then Search.division_by_zero
      else if gcd (exponent_candidate phi r) phi ≠ 1 then find_e phi rest
      else Search.found (exponent_candidate phi r) := rfl

/-- An exponent found by the search is a candidate coprime to `phi`, and the
divisor `phi - 2` was not zero. -/
theorem find_e_found (phi e : Nat) (rands : List Nat) (h : find_e phi rands = Search.found e) :
    (phi + 2 ^ 32 - 2) % 2 ^ 32 ≠ 0 ∧ (∃ r, e = exponent_candidate phi r) ∧ gcd e phi = 1 := by
  induction rands with
  | nil => simp [find_e] at h
  | cons r rest ih =>
    rw [find_e_cons] at h
    by_cases hm : (phi + 2 ^ 32 - 2) % 2 ^ 32 = 0
    · rw [if_pos hm] at h
      exact absurd h (by simp)
    · rw [if_neg hm] at h
      by_cases hg : gcd (exponent_candidate phi r) phi ≠ 1
      · rw [if_pos hg] at h
        exact ih h
      · rw [if_neg hg] at h
        have he : exponent_candidate phi r = e := by
          injection h
        refine ⟨hm, ⟨r, he.symm⟩, ?_⟩
        rw [← he]
        exact not_not.mp hg

/-- Bounds of the candidate for a 32-bit `phi > 2`. -/
theorem exponent_candidate_bounds (phi r : Nat) (h2 : 2 < phi) (h32 : phi < 2 ^ 32) :
    exponent_candidate phi r = 2 + r % 2 ^ 32 % (phi - 2) ∧
      2 ≤ exponent_candidate phi r ∧ exponent_candidate phi r ≤ phi - 1 := by
  have hm : (phi + 2 ^ 32 - 2) % 2 ^ 32 = phi - 2 := by omega
  have hlt : r % 2 ^ 32 % (phi - 2) < phi - 2 := Nat.mod_lt _ (by omega)
  have hc : exponent_candidate phi r = 2 + r % 2 ^ 32 % (phi - 2) := by
    unfold exponent_candidate
    rw [hm]
    exact Nat.mod_eq_of_lt (by omega)
  rw [hc]
  omega

/-- A number accepted by `miller_rabin` is at least two. -/
theorem two_le_of_miller_rabin (n : Nat) (k : Int) (bytes : Nat → Nat)
    (h : miller_rabin n k bytes = true) : 2 ≤ n := by
  by_contra hlt
  have : miller_rabin n k bytes = false := by
    unfold miller_rabin
    rw [if_pos (by omega)]
  rw [this] at h
  exact Bool.noConfusion h

/-- The first prime search returns a 16-bit value accepted by `miller_rabin`. -/
theorem find_p_some (cands rest : List Candidate) (p : Nat)
    (h : find_p cands = some (p, rest)) :
    p < 2 ^ 16 ∧ ∃ bytes, miller_rabin p 5 bytes = true := by
  induction cands with
  | nil => simp [find_p] at h
  | cons c cs ih =>
    simp only [find_p] at h
    by_cases hc : miller_rabin (c.value % 2 ^ 16) 5 c.bytes = true
    · simp only [hc, Bool.not_true, Bool.false_eq_true, if_false, Option.some.injEq,
        Prod.mk.injEq] at h
      rw [← h.1]
      exact ⟨Nat.mod_lt _ (by norm_num), c.bytes, hc⟩
    · simp only [Bool.not_eq_true] at hc
      simp only [hc, Bool.not_false, if_true] at h
      exact ih h

/-- The second prime search returns a 16-bit value accepted by `miller_rabin`
and different from `p`. -/
theorem find_q_some (p : Nat) (cands rest : List Candidate) (q : Nat)
    (h : find_q p cands = some (q, rest)) :
    q < 2 ^ 16 ∧ q ≠ p ∧ ∃ bytes, miller_rabin q 5 bytes = true := by
  induction cands with
  | nil => simp [find_q] at h
  | cons c cs ih =>
    simp only [find_q] at h
    by_cases hc : (!miller_rabin (c.value % 2 ^ 16) 5 c.bytes || c.value % 2 ^ 16 == p) = true
    · rw [if_pos hc] at h
      exact ih h
    · rw [if_neg hc] at h
      simp only [Option.some.injEq, Prod.mk.injEq] at h
      simp only [Bool.or_eq_true, Bool.not_eq_true', beq_iff_eq, not_or, Bool.not_eq_false] at hc
      rw [← h.1]
      exact ⟨Nat.mod_lt _ (by norm_num), hc.2, c.bytes, hc.1⟩

/-- The 32-bit value of `phi` is the exact product `(p - 1) * (q - 1)` for
16-bit `p, q ≥ 1`. -/
theorem phi_exact (p q : Nat) (hp1 : 1 ≤ p) (hq1 : 1 ≤ q) (hp : p < 2 ^ 16) (hq : q < 2 ^ 16) :
    toUInt32 (((p : Int) - 1) * ((q : Int) - 1)) = (p - 1) * (q - 1) := by
  have hlt : (p - 1) * (q - 1) < 2 ^ 32 := by
    calc (p - 1) * (q - 1) ≤ (2 ^ 16 - 1) * (2 ^ 16 - 1) :=
          Nat.mul_le_mul (by omega) (by omega)
      _ < 2 ^ 32 := by norm_num
  have hcast : ((p : Int) - 1) * ((q : Int) - 1) = (((p - 1) * (q - 1) : Nat) : Int) := by
    push_cast [Nat.cast_sub hp1, Nat.cast_sub hq1]
    ring
  unfold toUInt32
  rw [hcast]
  omega

/-- Conversion to `int` keeps a value below `2^31`. -/
theorem toInt32_of_lt (x : Nat) (h : x < 2 ^ 31) : toInt32 x = (x : Int) := by
  unfold toInt32
  have hx : x % 2 ^ 32 = x := Nat.mod_eq_of_lt (by omega)
  rw [hx, if_pos h]

/-- For coprime `e < phi < 2^31` the derivation of the private exponent returns
the inverse of `e` modulo `phi` in `[0, phi)`. -/
theorem private_exponent_spec (e phi : Nat) (h2 : 2 ≤ e) (he : e < phi) (hphi : phi < 2 ^ 31)
    (hg : Nat.gcd e phi = 1) :
    ∃ d, private_exponent e phi = some d ∧ d < phi ∧ e * d % phi = 1 := by
  have hie : toInt32 e = (e : Int) := toInt32_of_lt e (by omega)
  have hiphi : toInt32 phi = (phi : Int) := toInt32_of_lt phi hphi
  obtain ⟨g, u, v, hext, hbez, hu, _, _, hpos⟩ :=
    extended_euclidean_spec (e : Int) (phi : Int)
      (by unfold in_int INT_MIN INT_MAX; omega) (by unfold in_int INT_MIN INT_MAX; omega)
      (by omega) (by omega)
      ⟨fun h => by have := h.2; omega, fun h => by have := h.1; omega⟩
  have hg1 : g = 1 := by
    rw [hpos (by omega) (by omega), Int.gcd_natCast_natCast, hg]
    rfl
  rw [hg1] at hbez
  have hphi0 : (phi : Int) ≠ 0 := by omega
  have hnot : ¬ (u = INT_MIN ∧ (phi : Int) = -1) := fun h => by have := h.2; omega
  have hdiv : (phi : Int) * u.tdiv phi + u.tmod phi = u := Int.tdiv_add_tmod u phi
  have habs : (u.tmod phi).natAbs < phi := by
    rw [natAbs_tmod, Int.natAbs_ofNat]
    exact Nat.mod_lt _ (by omega)
  have hpe : private_exponent e phi =
      some (toUInt32 (if u.tmod phi < 0 then toInt32 (toUInt32 (u.tmod phi) + phi)
        else u.tmod phi)) := by
    unfold private_exponent
    rw [hie, hiphi, hext]
    simp only [if_neg hphi0, if_neg hnot]
  have key : ∀ D : Int, 0 ≤ D → D < phi → (∃ t : Int, (e : Int) * D = 1 + phi * t) →
      toUInt32 D < phi ∧ e * toUInt32 D % phi = 1 := by
    intro D h0 hlt ⟨t, ht⟩
    have hD : toUInt32 D = D.toNat := by
      unfold toUInt32
      congr 1
      exact Int.emod_eq_of_lt h0 (by omega)
    rw [hD]
    refine ⟨by omega, ?_⟩
    have hcast : ((e * D.toNat : Nat) : Int) = 1 + phi * t := by
      rw [Nat.cast_mul, Int.toNat_of_nonneg h0, ht]
    have hmod : ((e * D.toNat : Nat) : Int) % (phi : Int) = 1 := by
      rw [hcast, Int.add_mul_emod_self_left]
      exact Int.emod_eq_of_lt (by omega) (by omega)
    have := Int.natCast_mod (e * D.toNat) phi
    omega
  rw [hpe]
  by_cases hneg : u.tmod phi < 0
  · rw [if_pos hneg]
    have hwrap : toInt32 (toUInt32 (u.tmod phi) + phi) = u.tmod phi + phi := by
      have h1 : toUInt32 (u.tmod phi) = (u.tmod phi + 2 ^ 32).toNat := by
        unfold toUInt32
        congr 1
        rw [← Int.add_emod_self]
        exact Int.emod_eq_of_lt (by omega) (by omega)
      rw [h1]
      unfold toInt32
      have h2 : ((u.tmod phi + 2 ^ 32).toNat + phi) % 2 ^ 32 = (u.tmod phi + phi).toNat := by
        omega
      rw [h2, if_pos (by omega)]
      omega
    rw [hwrap]
    obtain ⟨h1, h2⟩ := key (u.tmod phi + phi) (by omega) (by omega)
      ⟨-v - e * u.tdiv phi + e, by
        have : (e : Int) * (u.tmod phi + phi) =
            e * ((phi : Int) * u.tdiv phi + u.tmod phi) - e * phi * u.tdiv phi + e * phi := by
          ring
        rw [this, hdiv]
        have hb : (e : Int) * u = 1 - phi * v := by omega
        rw [hb]
        ring⟩
    exact ⟨_, rfl, h1, h2⟩
  · rw [if_neg hneg]
    obtain ⟨h1, h2⟩ := key (u.tmod phi) (by omega) (by omega)
      ⟨-v - e * u.tdiv phi, by
        have : (e : Int) * u.tmod phi =
            e * ((phi : Int) * u.tdiv phi + u.tmod phi) - e * phi * u.tdiv phi := by
          ring
        rw [this, hdiv]
        have hb : (e : Int) * u = 1 - phi * v := by omega
        rw [hb]
        ring⟩
    exact ⟨_, rfl, h1, h2⟩

/-- A returned key pair comes from a selected `p`, a selected `q`, an exponent
found by the search and the private exponent derived from it. -/
theorem generate_rsa_keys_returned (cands : List Candidate) (rands : List Nat) (keys : rsa_keys)
    (h : generate_rsa_keys cands rands = Run.returned keys) :
    ∃ p rest q rest',
      find_p cands = some (p, rest) ∧ find_q p rest = some (q, rest') ∧
      find_e (toUInt32 (((p : Int) - 1) * ((q : Int) - 1))) rands = Search.found keys.pub.e ∧
      private_exponent keys.pub.e (toUInt32 (((p : Int) - 1) * ((q : Int) - 1)))
        = some keys.priv.d ∧
      keys.pub.n = toUInt32 ((p : Int) * (q : Int)) ∧
      keys.priv.n = toUInt32 ((p : Int) * (q : Int)) := by
  unfold generate_rsa_keys at h
  cases hp : find_p cands with
  | none => rw [hp] at h; exact Run.noConfusion h
  | some pr =>
    obtain ⟨p, rest⟩ := pr
    rw [hp] at h
    simp only at h
    cases hq : find_q p rest with
    | none => rw [hq] at h; exact Run.noConfusion h
    | some qr =>
      obtain ⟨q, rest'⟩ := qr
      rw [hq] at h
      simp only at h
      cases he : find_e (toUInt32 (((p : Int) - 1) * ((q : Int) - 1))) rands with
      | division_by_zero => rw [he] at h; exact Run.noConfusion h
      | still_looping => rw [he] at h; exact Run.noConfusion h
      | found e =>
        rw [he] at h
        simp only at h
        cases hx : extended_euclidean (toInt32 e)
            (toInt32 (toUInt32 (((p : Int) - 1) * ((q : Int) - 1)))) with
        | none => rw [hx] at h; exact Run.noConfusion h
        | some guv =>
          obtain ⟨g, u, v⟩ := guv
          rw [hx] at h
          simp only at h
          by_cases h0 : toInt32 (toUInt32 (((p : Int) - 1) * ((q : Int) - 1))) = 0
          · rw [if_pos h0] at h; exact Run.noConfusion h
          · rw [if_neg h0] at h
            by_cases h1 : u = INT_MIN ∧
                toInt32 (toUInt32 (((p : Int) - 1) * ((q : Int) - 1))) = -1
            · rw [if_pos h1] at h; exact Run.noConfusion h
            · rw [if_neg h1] at h
              injection h with hk
              subst hk
              refine ⟨p, rest, q, rest', rfl, hq, he, ?_, rfl, rfl⟩
              unfold private_exponent
              rw [hx]
              simp only [if_neg h0, if_neg h1]

/-- The exponent search divides by zero only when `phi - 2` is zero. -/
theorem find_e_ne_division_by_zero (phi : Nat) (rands : List Nat)
    (hm : (phi + 2 ^ 32 - 2) % 2 ^ 32 ≠ 0) : find_e phi rands ≠ Search.division_by_zero := by
  induction rands with
  | nil => simp [find_e]
  | cons r rest ih =>
    rw [find_e_cons, if_neg hm]
    by_cases hg : gcd (exponent_candidate phi r) phi ≠ 1
    · rw [if_pos hg]; exact ih
    · rw [if_neg hg]; simp

/-- The first prime search stops at a prime candidate up to `2^16`. -/
theorem find_p_prime (p : Nat) (b : Nat → Nat) (rest : List Candidate) (hp : p.Prime)
    (h16 : p < 2 ^ 16) : find_p (⟨p, b⟩ :: rest) = some (p, rest) := by
  have hmod : p % 2 ^ 16 = p := Nat.mod_eq_of_lt h16
  simp only [find_p, hmod, miller_rabin_prime_small p 5 b hp (le_of_lt h16), Bool.not_true,
    Bool.false_eq_true, if_false]

/-- The second prime search stops at a prime candidate up to `2^16` other than `p`. -/
theorem find_q_prime (p q : Nat) (b : Nat → Nat) (rest : List Candidate) (hq : q.Prime)
    (h16 : q < 2 ^ 16) (hne : q ≠ p) : find_q p (⟨q, b⟩ :: rest) = some (q, rest) := by
  have hmod : q % 2 ^ 16 = q := Nat.mod_eq_of_lt h16
  have hbeq : (q == p) = false := beq_false_of_ne hne
  simp only [find_q, hmod, miller_rabin_prime_small q 5 b hq (le_of_lt h16), Bool.not_true,
    hbeq, Bool.or_self, Bool.false_eq_true, if_false]

/-- With a 32-bit `phi` other than `0` and `2`, `generate_rsa_keys` does not
divide by zero once `p` and `q` are selected. -/
theorem generate_rsa_keys_ne_division_by_zero (cands rest rest' : List Candidate)
    (rands : List Nat) (p q : Nat) (hp : find_p cands = some (p, rest))
    (hq : find_q p rest = some (q, rest'))
    (hphi : 2 < toUInt32 (((p : Int) - 1) * ((q : Int) - 1)))
    (h32 : toUInt32 (((p : Int) - 1) * ((q : Int) - 1)) < 2 ^ 32) :
    generate_rsa_keys cands rands ≠ Run.division_by_zero := by
  have hm : (toUInt32 (((p : Int) - 1) * ((q : Int) - 1)) + 2 ^ 32 - 2) % 2 ^ 32 ≠ 0 := by
    omega
  have h0 : toInt32 (toUInt32 (((p : Int) - 1) * ((q : Int) - 1))) ≠ 0 := by
    unfold toInt32
    split <;> omega
  unfold generate_rsa_keys
  rw [hp]
  simp only
  rw [hq]
  simp only
  cases he : find_e (toUInt32 (((p : Int) - 1) * ((q : Int) - 1))) rands with
  | division_by_zero => exact absurd he (find_e_ne_division_by_zero _ _ hm)
  | still_looping => simp
  | found e =>
    simp only
    cases hx : extended_euclidean (toInt32 e)
        (toInt32 (toUInt32 (((p : Int) - 1) * ((q : Int) - 1)))) with
    | none => simp
    | some guv =>
      obtain ⟨g, u, v⟩ := guv
      simp only [if_neg h0]
      split <;> simp

/-- When the exponent search divides by zero, so does `generate_rsa_keys`. -/
theorem generate_rsa_keys_division_by_zero (cands rest rest' : List Candidate)
    (rands : List Nat) (p q : Nat) (hp : find_p cands = some (p, rest))
    (hq : find_q p rest = some (q, rest'))
    (he : find_e (toUInt32 (((p : Int) - 1) * ((q : Int) - 1))) rands
      = Search.division_by_zero) :
    generate_rsa_keys cands rands = Run.division_by_zero := by
  unfold generate_rsa_keys
  rw [hp]
  simp only
  rw [hq]
  simp only
  rw [he]

/-! ## Encryption followed by decryption -/

/-- An exponent congruent to one modulo `p - 1` fixes every residue modulo a
prime `p`. -/
theorem pow_fermat (p m k : Nat) (hp : p.Prime) : m ^ (1 + k * (p - 1)) ≡ m [MOD p] := by
  haveI : Fact p.Prime := ⟨hp⟩
  rw [← ZMod.natCast_eq_natCast_iff, Nat.cast_pow]
  by_cases h0 : (m : ZMod p) = 0
  · rw [h0, pow_add, pow_one, zero_mul]
  · rw [pow_add, pow_one, mul_comm k, pow_mul, ZMod.pow_card_sub_one_eq_one h0, one_pow,
      mul_one]

/-- Correctness of the RSA exponents modulo a product of two distinct primes. -/
theorem pow_rsa (p q e d m : Nat) (hp : p.Prime) (hq : q.Prime) (hne : p ≠ q)
    (hed : e * d ≡ 1 [MOD (p - 1) * (q - 1)]) : m ^ (e * d) % (p * q) = m % (p * q) := by
  have hp2 := hp.two_le
  have hq2 := hq.two_le
  have hphi : 2 ≤ (p - 1) * (q - 1) := by
    rcases Nat.lt_or_ge p 3 with h | h
    · have hp' : p - 1 = 1 := by omega
      rw [hp', Nat.one_mul]; omega
    · calc 2 = 2 * 1 := by norm_num
        _ ≤ (p - 1) * (q - 1) := Nat.mul_le_mul (by omega) (by omega)
  have hmod : e * d % ((p - 1) * (q - 1)) = 1 := by
    have h := hed
    unfold Nat.ModEq at h
    rw [h]
    exact Nat.mod_eq_of_lt (by omega)
  have hsplit : e * d = 1 + (e * d / ((p - 1) * (q - 1))) * ((p - 1) * (q - 1)) := by
    have := Nat.div_add_mod (e * d) ((p - 1) * (q - 1))
    rw [hmod] at this
    rw [Nat.mul_comm] at this
    omega
  have h1 : m ^ (e * d) ≡ m [MOD p] := by
    have hk : e * d = 1 + (e * d / ((p - 1) * (q - 1)) * (q - 1)) * (p - 1) := by
      rw [hsplit]
      congr 1
      rw [← hsplit]
      ring
    rw [hk]
    exact pow_fermat p m _ hp
  have h2 : m ^ (e * d) ≡ m [MOD q] := by
    have hk : e * d = 1 + (e * d / ((p - 1) * (q - 1)) * (p - 1)) * (q - 1) := by
      rw [hsplit]
      congr 1
      rw [← hsplit]
      ring
    rw [hk]
    exact pow_fermat q m _ hq
  exact (Nat.modEq_and_modEq_iff_modEq_mul ((Nat.coprime_primes hp hq).mpr hne)).mp ⟨h1, h2⟩

/-- With 32-bit modulus `p * q` of two distinct primes and inverse exponents,
`rsa_decrypt` after `rsa_encrypt` reduces the message modulo `p * q`. -/
theorem rsa_decrypt_encrypt (p q e d m : Nat) (hp : p.Prime) (hq : q.Prime) (hne : p ≠ q)
    (hn : p * q < 2 ^ 32) (hed : e * d ≡ 1 [MOD (p - 1) * (q - 1)]) :
    rsa_decrypt (rsa_encrypt m { n := p * q, e := e }) { n := p * q, d := d } = m % (p * q) := by
  have hn2 : 2 ≤ p * q := by
    calc 2 = 2 * 1 := by norm_num
      _ ≤ p * q := Nat.mul_le_mul hp.two_le (by have := hq.two_le; omega)
  unfold rsa_decrypt rsa_encrypt
  simp only
  rw [pow_mod_eq m e (p * q) (by omega) hn (Or.inl hn2),
    pow_mod_eq _ d (p * q) (by omega) hn (Or.inl hn2), ← Nat.pow_mod, ← pow_mul]
  exact pow_rsa p q e d m hp hq hne hed

/-! ## `pow_mod`: absence of 64-bit overflow and termination -/

/-- With a 32-bit accumulator and a 32-bit `b`, every product formed by the
loop is below `2^64`. -/
theorem pow_mod_products_lt (mod : Nat) (hmod : 0 < mod) (h32 : mod ≤ 2 ^ 32) (fuel : Nat) :
    ∀ result b exp : Nat, result < 2 ^ 32 → b < 2 ^ 32 →
      ∀ x ∈ pow_mod_products fuel result b exp mod, x < 2 ^ 64 := by
  induction fuel with
  | zero => intro result b exp _ _ x hx; simp [pow_mod_products] at hx
  | succ fuel ih =>
    intro result b exp hres hb x hx
    have hrb : result * b < 2 ^ 64 := by
      calc result * b < 2 ^ 32 * 2 ^ 32 := Nat.mul_lt_mul_of_lt_of_lt hres hb
        _ = 2 ^ 64 := by norm_num
    have hbb : b * b < 2 ^ 64 := by
      calc b * b < 2 ^ 32 * 2 ^ 32 := Nat.mul_lt_mul_of_lt_of_lt hb hb
        _ = 2 ^ 64 := by norm_num
    have hres' : (if exp &&& 1 ≠ 0 then (result * b) % 2 ^ 64 % mod else result) < 2 ^ 32 := by
      split
      · exact lt_of_lt_of_le (Nat.mod_lt _ hmod) h32
      · exact hres
    have hb' : (b * b) % 2 ^ 64 % mod < 2 ^ 32 := lt_of_lt_of_le (Nat.mod_lt _ hmod) h32
    simp only [pow_mod_products] at hx
    by_cases hexp : exp > 0
    · rw [if_pos hexp] at hx
      rcases List.mem_append.mp hx with h | h
      · rcases List.mem_append.mp h with h | h
        · by_cases hodd : exp &&& 1 ≠ 0
          · rw [if_pos hodd] at h
            rw [List.mem_singleton.mp h]; exact hrb
          · rw [if_neg hodd] at h
            simp at h
        · rw [List.mem_singleton.mp h]; exact hbb
      · exact ih _ _ _ hres' hb' x h
    · rw [if_neg hexp] at hx
      simp at hx

/-- With a 32-bit accumulator and a 32-bit `b`, the loop with 64-bit wrapping
products computes what the loop in exact arithmetic computes. -/
theorem pow_mod_loop_eq_exact (mod : Nat) (hmod : 0 < mod) (h32 : mod ≤ 2 ^ 32) (fuel : Nat) :
    ∀ result b exp : Nat, result < 2 ^ 32 → b < 2 ^ 32 →
      pow_mod_loop fuel result b exp mod = pow_mod_loop_exact fuel result b exp mod := by
  induction fuel with
  | zero => intro result b exp _ _; rfl
  | succ fuel ih =>
    intro result b exp hres hb
    have hrb : result * b < 2 ^ 64 := by
      calc result * b < 2 ^ 32 * 2 ^ 32 := Nat.mul_lt_mul_of_lt_of_lt hres hb
        _ = 2 ^ 64 := by norm_num
    have hbb : b * b < 2 ^ 64 := by
      calc b * b < 2 ^ 32 * 2 ^ 32 := Nat.mul_lt_mul_of_lt_of_lt hb hb
        _ = 2 ^ 64 := by norm_num
    have hres' : (if exp &&& 1 ≠ 0 then (result * b) % mod else result) < 2 ^ 32 := by
      split
      · exact lt_of_lt_of_le (Nat.mod_lt _ hmod) h32
      · exact hres
    have hb' : (b * b) % mod < 2 ^ 32 := lt_of_lt_of_le (Nat.mod_lt _ hmod) h32
    simp only [pow_mod_loop, pow_mod_loop_exact]
    rw [Nat.mod_eq_of_lt hrb, Nat.mod_eq_of_lt hbb]
    by_cases hexp : exp > 0
    · rw [if_pos hexp, if_pos hexp]
      exact ih _ _ _ hres' hb'
    · rw [if_neg hexp, if_neg hexp]

/-- The loop returns the accumulator once the exponent is zero. -/
theorem pow_mod_loop_exp_zero (fuel result b mod : Nat) :
    pow_mod_loop fuel result b 0 mod = result := by
  cases fuel <;> simp [pow_mod_loop]

/-- The result of the loop does not depend on the iteration bound once the
bound exceeds the bit length of the exponent: the loop has exited by then. -/
theorem pow_mod_loop_fuel (mod : Nat) (f1 : Nat) :
    ∀ f2 result b exp : Nat, exp < 2 ^ f1 → exp < 2 ^ f2 →
      pow_mod_loop f1 result b exp mod = pow_mod_loop f2 result b exp mod := by
  induction f1 with
  | zero =>
    intro f2 result b exp h1 _
    have h0 : exp = 0 := by simpa using h1
    subst h0
    rw [pow_mod_loop_exp_zero, pow_mod_loop_exp_zero]
  | succ f1 ih =>
    intro f2 result b exp h1 h2
    by_cases hexp : exp = 0
    · subst hexp
      rw [pow_mod_loop_exp_zero, pow_mod_loop_exp_zero]
    · cases f2 with
      | zero =>
        have h0 : exp = 0 := by simpa using h2
        exact absurd h0 hexp
      | succ f2 =>
        have hpos : exp > 0 := Nat.pos_of_ne_zero hexp
        simp only [pow_mod_loop, if_pos hpos]
        have hhalf1 : exp >>> 1 < 2 ^ f1 := by
          rw [Nat.shiftRight_eq_div_pow, pow_one]
          rw [pow_succ] at h1
          omega
        have hhalf2 : exp >>> 1 < 2 ^ f2 := by
          rw [Nat.shiftRight_eq_div_pow, pow_one]
          rw [pow_succ] at h2
          omega
        exact ih f2 _ _ _ hhalf1 hhalf2

/-! ## Extended Euclid on nonnegative arguments -/

/-- When the recursion on `int` returns, it returns what the recursion over the
unbounded integers returns. -/
theorem extended_euclidean_rec_exact (fuel : Nat) :
    ∀ (a b : Int) (r : Int × Int × Int), extended_euclidean_rec fuel a b = some r →
      r = extended_euclidean_exact_rec fuel a b := by
  induction fuel with
  | zero =>
    intro a b r h
    simp only [extended_euclidean_rec, Option.some.injEq] at h
    rw [← h]; rfl
  | succ fuel ih =>
    intro a b r h
    by_cases hb : b = 0
    · subst hb
      rw [extended_euclidean_rec_zero] at h
      simp only [Option.some.injEq] at h
      rw [← h]
      simp [extended_euclidean_exact_rec]
    · by_cases hmin : a = INT_MIN ∧ b = -1
      · rw [extended_euclidean_rec, if_neg hb, if_pos hmin] at h
        exact Option.noConfusion h
      · rw [extended_euclidean_rec_succ fuel a b hb hmin] at h
        cases hrec : extended_euclidean_rec fuel b (a.tmod b) with
        | none => rw [hrec] at h; exact Option.noConfusion h
        | some r1 =>
          obtain ⟨d, u1, v1⟩ := r1
          rw [hrec] at h
          simp only at h
          have hr1 := ih b (a.tmod b) (d, u1, v1) hrec
          by_cases hin : in_int (a.tdiv b * v1) ∧ in_int (u1 - a.tdiv b * v1)
          · rw [if_pos hin] at h
            simp only [Option.some.injEq] at h
            rw [← h]
            simp only [extended_euclidean_exact_rec, if_neg hb, ← hr1]
          · rw [if_neg hin] at h
            exact Option.noConfusion h

/-- The recursion on `int` returns on nonnegative arguments. -/
theorem extended_euclidean_rec_nonneg (fuel : Nat) (a b : Int) (h0a : 0 ≤ a) (h0b : 0 ≤ b)
    (ha : in_int a) (hb : in_int b) (hfuel : b.natAbs ≤ fuel) :
    ∃ r, extended_euclidean_rec fuel a b = some r := by
  unfold in_int INT_MIN INT_MAX at ha hb
  by_cases hb0 : b = 0
  · subst hb0
    exact ⟨_, extended_euclidean_rec_zero fuel a⟩
  · by_cases ha0 : a = 0
    · subst ha0
      obtain ⟨k, hk⟩ : ∃ k, fuel = k + 1 := ⟨fuel - 1, by omega⟩
      subst hk
      have hmin : ¬ ((0 : Int) = INT_MIN ∧ b = -1) := fun h => by have := h.2; omega
      have h01 : in_int 0 ∧ in_int 1 := by decide
      refine ⟨(b, 0, 1), ?_⟩
      rw [extended_euclidean_rec_succ k 0 b hb0 hmin]
      simp [extended_euclidean_rec_zero, h01.1, h01.2]
    · obtain ⟨g, u, v, h, _⟩ := extended_euclidean_rec_spec fuel a b hfuel ha0 hb0
        (by omega) (by omega)
      exact ⟨_, h⟩

/-- The result of the recursion on `int` does not depend on the depth bound once
the bound is at least `|b|`. -/
theorem extended_euclidean_rec_fuel (f1 : Nat) :
    ∀ (f2 : Nat) (a b : Int), b.natAbs ≤ f1 → b.natAbs ≤ f2 →
      extended_euclidean_rec f1 a b = extended_euclidean_rec f2 a b := by
  induction f1 with
  | zero =>
    intro f2 a b h1 _
    have hb : b = 0 := by omega
    subst hb
    rw [extended_euclidean_rec_zero, extended_euclidean_rec_zero]
  | succ f1 ih =>
    intro f2 a b h1 h2
    by_cases hb : b = 0
    · subst hb
      rw [extended_euclidean_rec_zero, extended_euclidean_rec_zero]
    · obtain ⟨k, hk⟩ : ∃ k, f2 = k + 1 := ⟨f2 - 1, by omega⟩
      subst hk
      by_cases hmin : a = INT_MIN ∧ b = -1
      · rw [extended_euclidean_rec, extended_euclidean_rec, if_neg hb, if_pos hmin, if_neg hb,
          if_pos hmin]
      · have hr : (a.tmod b).natAbs < b.natAbs := by
          rw [natAbs_tmod]
          exact Nat.mod_lt _ (by omega)
        rw [extended_euclidean_rec_succ f1 a b hb hmin,
          extended_euclidean_rec_succ k a b hb hmin,
          ih k b (a.tmod b) (by omega) (by omega)]

/-- On nonnegative `int` arguments every intermediate value of the recursion is
a value of `int`. -/
theorem extended_euclidean_values_in_int (fuel : Nat) :
    ∀ a b : Int, 0 ≤ a → 0 ≤ b → in_int a → in_int b → b.natAbs ≤ fuel →
      ∀ x ∈ extended_euclidean_values fuel a b, in_int x := by
  induction fuel with
  | zero => intro a b _ _ _ _ _ x hx; simp [extended_euclidean_values] at hx
  | succ fuel ih =>
    intro a b h0a h0b ha hb hfuel x hx
    by_cases hb0 : b = 0
    · simp [extended_euclidean_values, hb0] at hx
    · have hbpos : 0 < b := by omega
      have hr0 : 0 ≤ a.tmod b := Int.tmod_nonneg b h0a
      have hrlt : a.tmod b < b := Int.tmod_lt_of_pos a hbpos
      have hq0 : 0 ≤ a.tdiv b := Int.tdiv_nonneg h0a h0b
      have hqle : (a.tdiv b).natAbs ≤ a.natAbs := by
        rw [Int.natAbs_tdiv]; exact Nat.div_le_self _ _
      have hrin : in_int (a.tmod b) := by
        unfold in_int INT_MIN INT_MAX at hb ⊢; omega
      have hqin : in_int (a.tdiv b) := by
        unfold in_int INT_MIN INT_MAX at ha ⊢; omega
      have hmin : ¬ (a = INT_MIN ∧ b = -1) := fun h => by have := h.2; omega
      obtain ⟨r, hr⟩ := extended_euclidean_rec_nonneg (fuel + 1) a b h0a h0b ha hb hfuel
      obtain ⟨r1, hr1⟩ := extended_euclidean_rec_nonneg fuel b (a.tmod b) h0b hr0 hb hrin
        (by omega)
      have hex := extended_euclidean_rec_exact fuel b (a.tmod b) r1 hr1
      rw [extended_euclidean_rec_succ fuel a b hb0 hmin, hr1] at hr
      obtain ⟨d, u1, v1⟩ := r1
      simp only at hr
      have hin : in_int (a.tdiv b * v1) ∧ in_int (u1 - a.tdiv b * v1) := by
        by_contra hnot
        rw [if_neg hnot] at hr
        exact Option.noConfusion hr
      simp only [extended_euclidean_values, if_neg hb0, ← hex, List.cons_append,
        List.nil_append, List.mem_cons] at hx
      rcases hx with h | h | h | h | h
      · rw [h]; exact hrin
      · rw [h]; exact hqin
      · rw [h]; exact hin.1
      · rw [h]; exact hin.2
      · exact ih b (a.tmod b) h0b hr0 hb hrin (by omega) x h

/-! ## Miller-Rabin: the rounds are independent -/

/-- The round loop accepts exactly when each of its rounds, run alone, accepts. -/
theorem round_loop_iff (n d s : Nat) (bytes : Nat → Nat) (left : Nat) :
    ∀ i : Nat, round_loop left i n d s bytes = true ↔
      ∀ j, j < left → round_loop 1 0 n d s (fun _ => bytes (i + j)) = true := by
  induction left with
  | zero => intro i; simp [round_loop]
  | succ left ih =>
    intro i
    have hone : ∀ r : Nat, round_loop 1 0 n d s (fun _ => r) =
        if pow_mod (witness n r) d n = 1 ∨ pow_mod (witness n r) d n = n - 1 then true
        else if temoin_loop (s - 1) (pow_mod (witness n r) d n) n then false else true := by
      intro r
      rw [round_loop_succ]
      simp only [round_loop]
    have hsplit : round_loop (left + 1) i n d s bytes = true ↔
        round_loop 1 0 n d s (fun _ => bytes i) = true ∧
          round_loop left (i + 1) n d s bytes = true := by
      rw [round_loop_succ, hone]
      by_cases hc : pow_mod (witness n (bytes i)) d n = 1 ∨
          pow_mod (witness n (bytes i)) d n = n - 1
      · simp only [if_pos hc, true_and]
      · simp only [if_neg hc]
        by_cases ht : temoin_loop (s - 1) (pow_mod (witness n (bytes i)) d n) n = true
        · simp [ht]
        · simp [ht]
    rw [hsplit, ih (i + 1)]
    constructor
    · rintro ⟨h0, hrest⟩ j hj
      rcases Nat.eq_zero_or_pos j with hj0 | hjpos
      · subst hj0; exact h0
      · have := hrest (j - 1) (by omega)
        have hidx : i + 1 + (j - 1) = i + j := by omega
        rw [hidx] at this
        exact this
    · intro h
      refine ⟨h 0 (by omega), fun j hj => ?_⟩
      have := h (j + 1) (by omega)
      have hidx : i + (j + 1) = i + 1 + j := by omega
      rw [hidx] at this
      exact this

/-- On an odd `n ≥ 5`, `miller_rabin` with `k` rounds accepts exactly when each
of the `k` bytes passes a round on its own. -/
theorem miller_rabin_iff_rounds (n k : Nat) (bytes : Nat → Nat) (h5 : 5 ≤ n)
    (hodd : n % 2 = 1) :
    miller_rabin n (k : Int) bytes = true ↔ ∀ i, i < k → round_passes n (bytes i) = true := by
  have hpass : ∀ r, round_passes n r =
      round_loop 1 0 n (decompose_loop (n - 1) (n - 1) 0).1
        (decompose_loop (n - 1) (n - 1) 0).2 (fun _ => r) := by
    intro r
    unfold round_passes
    rw [miller_rabin_reaches_rounds n 1 _ h5 hodd]
    rfl
  rw [miller_rabin_reaches_rounds n k bytes h5 hodd, Int.toNat_ofNat, round_loop_iff]
  constructor
  · intro h i hi
    rw [hpass]
    have := h i hi
    rw [Nat.zero_add] at this
    exact this
  · intro h j hj
    rw [Nat.zero_add, ← hpass]
    exact h j hj

/-- Counting over `Fin n` and counting over `List.range n` agree. -/
theorem card_filter_fin_eq_length (n : Nat) (q : Nat → Bool) :
    (Finset.univ.filter (fun r : Fin n => q r.val = true)).card
      = ((List.range n).filter q).length := by
  rw [Finset.card_filter, Fin.sum_univ_eq_sum_range (fun i => if q i = true then 1 else 0) n,
    ← Finset.card_filter]
  simp [Finset.card, Finset.filter, Finset.range, Multiset.range]

/-- On an odd `n ≥ 5`, the number of accepted sequences of `k` nonzero bytes is
the `k`-th power of the number of bytes that pass one round. -/
theorem card_accepted_sequences (n k : Nat) (h5 : 5 ≤ n) (hodd : n % 2 = 1) :
    (accepted_sequences n k).card = passing_bytes n ^ k := by
  have hset : accepted_sequences n k =
      Fintype.piFinset (fun _ : Fin k =>
        Finset.univ.filter (fun r : Fin 255 => round_passes n (r.val + 1) = true)) := by
    ext f
    unfold accepted_sequences
    rw [Finset.mem_filter, Fintype.mem_piFinset, miller_rabin_iff_rounds n k _ h5 hodd]
    simp only [Finset.mem_univ, true_and, Finset.mem_filter]
    constructor
    · intro h i
      have := h i.val i.isLt
      unfold byte_sequence at this
      rw [dif_pos i.isLt] at this
      exact this
    · intro h i hi
      unfold byte_sequence
      rw [dif_pos hi]
      exact h ⟨i, hi⟩
  have hL : (Finset.univ.filter (fun r : Fin 255 => round_passes n (r.val + 1) = true)).card
      = passing_bytes n := by
    unfold passing_bytes
    exact card_filter_fin_eq_length 255 (fun r => round_passes n (r + 1))
  rw [hset, Fintype.card_piFinset, Finset.prod_const, Finset.card_univ, Fintype.card_fin, hL]

set_option maxRecDepth 100000 in
/-- A single round on `12403` passes for 67 of the 255 nonzero bytes. -/
theorem passing_bytes_12403 : passing_bytes 12403 = 67 := by
  decide

/-! ## The claims -/

/-- C1 (failing input).  The draws `p = 61`, `q = 53`, `rand() = 15` make
`generate_rsa_keys` return the key pair `n = 3233`, `e = 17`, `d = 2753`; for
the payload `65` and the padding byte `0x7F` the decrypted block is the padded
block reduced modulo `n`, and `unpadding` rejects it. -/
theorem generate_rsa_keys_round_trip_fails :
    generate_rsa_keys [⟨61, fun _ => 1⟩, ⟨53, fun _ => 1⟩] [15] =
        Run.returned { pub := { n := 3233, e := 17 }, priv := { n := 3233, d := 2753 } } ∧
      padding 65 0x7F = 0x027F0041 ∧
      rsa_decrypt (rsa_encrypt 0x027F0041 { n := 3233, e := 17 }) { n := 3233, d := 2753 } = 520 ∧
      round_trip { pub := { n := 3233, e := 17 }, priv := { n := 3233, d := 2753 } } 65 0x7F 0
        = (false, 0) := by
  decide

/-- C2 (failing input).  The draws `p = 65521`, `q = 65519`, `rand() = 9` make
`generate_rsa_keys` return `e = 11` and `d = 607619`, although
`phi = 65520 * 65518 = 4292739360` and `11 * 607619 mod phi = 6683809`: the
inverse was computed modulo `phi` converted to `int`, which is `-2227936`. -/
theorem generate_rsa_keys_bad_private_exponent :
    generate_rsa_keys [⟨65521, fun _ => 1⟩, ⟨65519, fun _ => 1⟩] [9] =
        Run.returned
          { pub := { n := 4292870399, e := 11 }, priv := { n := 4292870399, d := 607619 } } ∧
      toInt32 ((65521 - 1) * (65519 - 1)) = -2227936 ∧
      11 * 607619 % ((65521 - 1) * (65519 - 1)) = 6683809 := by
  decide

/-- C5 (failing input).  The number `66553` is prime, yet `miller_rabin`
returns `false` on it when the first witness byte is `17`: the witness is
`19`, `19^8319 mod 66553 = 65764`, and the square of `65764` exceeds `2^32`. -/
theorem miller_rabin_rejects_prime_66553 :
    Nat.Prime 66553 ∧ miller_rabin 66553 5 (fun _ => 17) = false ∧
      pow_mod 19 8319 66553 = 65764 ∧ 2 ^ 32 ≤ 65764 * 65764 := by
  refine ⟨by norm_num, by decide, by decide, by decide⟩

/-- C3 (counterexample).  With modulus `1` and exponent `0` the accumulator is
returned as initialised, `1`, whereas `7 ^ 0 mod 1 = 0`. -/
theorem pow_mod_modulus_one_exponent_zero :
    pow_mod 7 0 1 = 1 ∧ 7 ^ 0 % 1 = 0 ∧ pow_mod 7 0 1 ≠ 7 ^ 0 % 1 := by
  decide

/-- C3 (amended).  For every 32-bit base and exponent and every 32-bit modulus
greater than zero, provided the modulus is greater than one or the exponent is
greater than zero, `pow_mod base exp mod` is `base ^ exp mod mod`. -/
theorem pow_mod_correct (base exp mod : Nat) (_hbase : base < 2 ^ 32) (_hexp : exp < 2 ^ 32)
    (hmod : 0 < mod) (h32 : mod < 2 ^ 32) (h : 1 < mod ∨ 0 < exp) :
    pow_mod base exp mod = base ^ exp % mod :=
  pow_mod_eq base exp mod hmod h32 h

/-- C3 (amended), instance at base 65, exponent 17, modulus 3233. -/
theorem pow_mod_correct_witness :
    (1 < 3233 ∨ 0 < 17) ∧ pow_mod 65 17 3233 = 65 ^ 17 % 3233 :=
  ⟨by decide, pow_mod_correct 65 17 3233 (by decide) (by decide) (by decide) (by decide)
    (by decide)⟩

/-- C4.  For every prime `n ≤ 65535`, every round count `k ≥ 1` and every
sequence of nonzero witness bytes, `miller_rabin n k` returns true. -/
theorem miller_rabin_accepts_prime_16bit (n : Nat) (k : Int) (bytes : Nat → Nat)
    (hp : n.Prime) (hn : n ≤ 65535) (_hk : 1 ≤ k)
    (_hbytes : ∀ i, 1 ≤ bytes i ∧ bytes i ≤ 255) :
    miller_rabin n k bytes = true :=
  miller_rabin_prime_small n k bytes hp (by omega)

/-- C4, instance at the prime 65521. -/
theorem miller_rabin_accepts_prime_16bit_witness :
    Nat.Prime 65521 ∧ miller_rabin 65521 5 (fun _ => 200) = true :=
  ⟨by norm_num, miller_rabin_accepts_prime_16bit 65521 5 (fun _ => 200) (by norm_num)
    (by decide) (by decide) (fun _ => ⟨by norm_num, by norm_num⟩)⟩

/-- C6 (counterexample).  On `(4, -2)` the function returns `-2` with
coefficients `(0, 1)`, while `gcd(4, -2) = 2`; on `(INT_MIN, -1)` the remainder
`INT_MIN % -1` overflows. -/
theorem extended_euclidean_negative_result :
    extended_euclidean 4 (-2) = some (-2, 0, 1) ∧ Int.gcd 4 (-2) = 2 ∧
      extended_euclidean INT_MIN (-1) = none := by
  decide

/-- C6 (amended).  For all nonzero signed 32-bit `a` and `b` other than the
pairs `(INT_MIN, -1)` and `(-1, INT_MIN)`, `extended_euclidean a b` returns
without signed overflow a triple `(g, u, v)` of 32-bit values with
`a * u + b * v = g` over the integers and `|g| = gcd(a, b)`; when `a` and `b`
are both positive, `g = gcd(a, b)`. -/
theorem extended_euclidean_bezout (a b : Int) (ha : in_int a) (hb : in_int b)
    (ha0 : a ≠ 0) (hb0 : b ≠ 0)
    (hpair : ¬ (a = INT_MIN ∧ b = -1) ∧ ¬ (a = -1 ∧ b = INT_MIN)) :
    ∃ g u v : Int, extended_euclidean a b = some (g, u, v) ∧
      a * u + b * v = g ∧ in_int u ∧ in_int v ∧
      g.natAbs = Int.gcd a b ∧ (0 < a → 0 < b → g = Int.gcd a b) :=
  extended_euclidean_spec a b ha hb ha0 hb0 hpair

/-- C6 (amended), instance at `(-240, 46)`. -/
theorem extended_euclidean_bezout_witness :
    (in_int (-240) ∧ in_int 46 ∧ (-240 : Int) ≠ 0 ∧ (46 : Int) ≠ 0) ∧
      (extended_euclidean (-240) 46).isSome = true :=
  ⟨by decide, by
    obtain ⟨g, u, v, h, _⟩ :=
      extended_euclidean_bezout (-240) 46 (by decide) (by decide) (by decide) (by decide)
        (by decide)
    rw [h]
    rfl⟩

/-- C7.  For every 32-bit block `eb`, `unpadding` returns false exactly when
the top byte is not `0x02`, or the second byte is `0x00`, or the third byte is
not `0x00`; when it returns true the output byte is `eb & 0xFF`, and when it
returns false the output byte is unchanged. -/
theorem unpadding_spec (eb m : Nat) (_heb : eb < 2 ^ 32) :
    ((unpadding eb m).1 = false ↔
      (eb / 2 ^ 24 % 256 ≠ 0x02 ∨ eb / 2 ^ 16 % 256 = 0x00 ∨ eb / 2 ^ 8 % 256 ≠ 0x00)) ∧
    ((unpadding eb m).1 = true → (unpadding eb m).2 = eb &&& 0xFF) ∧
    ((unpadding eb m).1 = false → (unpadding eb m).2 = m) := by
  rw [unpadding_eq, and_255]
  by_cases h : eb / 2 ^ 24 % 256 ≠ 2 ∨ eb / 2 ^ 16 % 256 = 0 ∨ eb / 2 ^ 8 % 256 ≠ 0
  · rw [if_pos h]
    exact ⟨⟨fun _ => h, fun _ => rfl⟩, fun h1 => Bool.noConfusion h1, fun _ => rfl⟩
  · rw [if_neg h]
    exact ⟨⟨fun h1 => Bool.noConfusion h1, fun h1 => absurd h1 h⟩, fun _ => rfl,
      fun h1 => Bool.noConfusion h1⟩

/-- C7, instance at the block `0x027F0041`. -/
theorem unpadding_spec_witness :
    (0x027F0041 : Nat) < 2 ^ 32 ∧ (unpadding 0x027F0041 0).1 = true ∧
      (unpadding 0x027F0041 0).2 = 0x027F0041 &&& 0xFF :=
  ⟨by decide, by decide, (unpadding_spec 0x027F0041 0 (by decide)).2.1 (by decide)⟩

/-- C8.  For every payload byte `m` in `[0, 255]` and every nonzero random byte
`r`, `padding m` is `0x02000000 + r * 65536 + m`: bits 31-24 are `0x02`, bits
23-16 are `r`, bits 15-8 are `0x00` and bits 7-0 are `m`. -/
theorem padding_layout (m r : Nat) (hm : m ≤ 255) (_hr0 : 1 ≤ r) (hr : r ≤ 255) :
    padding m r = 0x02000000 + r * 65536 + m ∧
      padding m r / 2 ^ 24 % 256 = 0x02 ∧ padding m r / 2 ^ 16 % 256 = r ∧
      padding m r / 2 ^ 8 % 256 = 0x00 ∧ padding m r % 256 = m := by
  rw [padding_eq m r (by omega) (by omega)]
  refine ⟨rfl, ?_, ?_, ?_, ?_⟩ <;> omega

/-- C8, instance at payload 65 and random byte `0x7F`. -/
theorem padding_layout_witness :
    (65 ≤ 255 ∧ 1 ≤ 0x7F ∧ 0x7F ≤ 255) ∧ padding 65 0x7F = 0x02000000 + 0x7F * 65536 + 65 :=
  ⟨by decide, (padding_layout 65 0x7F (by decide) (by decide) (by decide)).1⟩

/-- C9.  For all unsigned 32-bit `a` and `b`, the loop of `gcd` exits within
`b` iterations and `gcd a b` is the greatest common divisor: it divides `a`
and `b`, every common divisor divides it, `gcd a 0 = a`, and
`gcd a b = gcd b a`. -/
theorem gcd_spec (a b : Nat) (ha : a < 2 ^ 32) (hb : b < 2 ^ 32) :
    gcd a b ∣ a ∧ gcd a b ∣ b ∧ (∀ c, c ∣ a → c ∣ b → c ∣ gcd a b) ∧
      gcd a 0 = a ∧ gcd a b = gcd b a ∧ gcd a b < 2 ^ 32 ∧
      (∀ fuel, b ≤ fuel → gcd_loop fuel a b = gcd a b) := by
  refine ⟨?_, ?_, ?_, ?_, ?_, ?_, ?_⟩
  · rw [gcd_eq]; exact Nat.gcd_dvd_left a b
  · rw [gcd_eq]; exact Nat.gcd_dvd_right a b
  · intro c hca hcb; rw [gcd_eq]; exact Nat.dvd_gcd hca hcb
  · rw [gcd_eq]; exact Nat.gcd_zero_right a
  · rw [gcd_eq, gcd_eq]; exact Nat.gcd_comm a b
  · rw [gcd_eq]
    rcases Nat.eq_zero_or_pos a with h | h
    · subst h; rw [Nat.gcd_zero_left]; exact hb
    · exact lt_of_le_of_lt (Nat.gcd_le_left b h) ha
  · intro fuel hfuel; rw [gcd_eq]; exact gcd_loop_eq fuel a b hfuel

/-- C9, instance at `(12, 18)`. -/
theorem gcd_spec_witness :
    ((12 : Nat) < 2 ^ 32 ∧ (18 : Nat) < 2 ^ 32) ∧ gcd 12 18 ∣ 12 ∧ gcd 12 18 ∣ 18 ∧
      gcd 12 18 = gcd 18 12 :=
  ⟨by decide, (gcd_spec 12 18 (by decide) (by decide)).1,
    (gcd_spec 12 18 (by decide) (by decide)).2.1,
    (gcd_spec 12 18 (by decide) (by decide)).2.2.2.2.1⟩

/-- C10.  For every 32-bit base and every 32-bit modulus greater than one,
`pow_mod base 0 mod = 1` and `pow_mod base 1 mod = base mod mod`. -/
theorem pow_mod_exp_zero_one (base mod : Nat) (_hbase : base < 2 ^ 32) (h1 : 1 < mod)
    (h32 : mod < 2 ^ 32) :
    pow_mod base 0 mod = 1 ∧ pow_mod base 1 mod = base % mod := by
  constructor
  · rw [pow_mod_eq base 0 mod (by omega) h32 (Or.inl h1), pow_zero]
    exact Nat.mod_eq_of_lt h1
  · rw [pow_mod_eq base 1 mod (by omega) h32 (Or.inl h1), pow_one]

/-- C10, instance at base 4000000000 and modulus 3233. -/
theorem pow_mod_exp_zero_one_witness :
    ((4000000000 : Nat) < 2 ^ 32 ∧ 1 < 3233 ∧ (3233 : Nat) < 2 ^ 32) ∧
      pow_mod 4000000000 0 3233 = 1 ∧ pow_mod 4000000000 1 3233 = 4000000000 % 3233 :=
  ⟨by decide, pow_mod_exp_zero_one 4000000000 3233 (by decide) (by decide) (by decide)⟩

/-- C11 (counterexample).  With the keys `(3233, 17)` and `(3233, 2753)`, the
payload `65` and the padding byte `0x7F`, `unpadding` rejects the decrypted
block. -/
theorem textbook_scenario_rejected :
    (round_trip { pub := { n := 3233, e := 17 }, priv := { n := 3233, d := 2753 } }
      65 0x7F 0).1 = false := by
  decide

/-- C11 (amended).  With the keys `(3233, 17)` and `(3233, 2753)`, `padding`
builds `0x027F0041` for the payload `65` and the random byte `0x7F`;
`rsa_encrypt` followed by `rsa_decrypt` returns that block reduced modulo
`3233`, which is `520`; `unpadding` rejects it and leaves its output byte
unchanged.  The payload `65` itself survives `rsa_encrypt` and `rsa_decrypt`. -/
theorem textbook_scenario (m0 : Nat) :
    padding 65 0x7F = 0x027F0041 ∧
      rsa_decrypt (rsa_encrypt 0x027F0041 { n := 3233, e := 17 }) { n := 3233, d := 2753 }
        = 0x027F0041 % 3233 ∧
      0x027F0041 % 3233 = 520 ∧
      round_trip { pub := { n := 3233, e := 17 }, priv := { n := 3233, d := 2753 } }
        65 0x7F m0 = (false, m0) ∧
      rsa_decrypt (rsa_encrypt 65 { n := 3233, e := 17 }) { n := 3233, d := 2753 } = 65 := by
  refine ⟨by decide, by decide, by decide, ?_, by decide⟩
  have h1 : padding 65 0x7F = 0x027F0041 := by decide
  have h2 : rsa_decrypt (rsa_encrypt 0x027F0041 { n := 3233, e := 17 })
      { n := 3233, d := 2753 } = 520 := by decide
  unfold round_trip
  simp only [h1, h2]
  rw [unpadding_eq]
  rfl

/-- C14.  For every round count and every byte sequence, `miller_rabin` returns
false for `n < 2`, true for `n = 2` and `n = 3`, and false for every even
`n ≥ 4`. -/
theorem miller_rabin_trivial_cases (n : Nat) (k : Int) (bytes : Nat → Nat) :
    (n < 2 → miller_rabin n k bytes = false) ∧
      (n = 2 ∨ n = 3 → miller_rabin n k bytes = true) ∧
      (4 ≤ n → n % 2 = 0 → miller_rabin n k bytes = false) := by
  refine ⟨?_, ?_, ?_⟩
  · intro h
    unfold miller_rabin
    rw [if_pos h]
  · intro h
    unfold miller_rabin
    rw [if_neg (by omega), if_pos h]
  · intro h4 heven
    unfold miller_rabin
    rw [if_neg (by omega), if_neg (by omega), if_pos (by rw [Nat.and_one_is_mod]; exact heven)]

/-- C14, instances at `n = 1`, `n = 3` and `n = 65536`. -/
theorem miller_rabin_trivial_cases_witness :
    miller_rabin 1 5 (fun _ => 7) = false ∧ miller_rabin 3 5 (fun _ => 7) = true ∧
      miller_rabin 65536 5 (fun _ => 7) = false :=
  ⟨(miller_rabin_trivial_cases 1 5 (fun _ => 7)).1 (by decide),
    (miller_rabin_trivial_cases 3 5 (fun _ => 7)).2.1 (by decide),
    (miller_rabin_trivial_cases 65536 5 (fun _ => 7)).2.2 (by decide) (by decide)⟩

/-- C15.  For every odd 32-bit `n ≥ 5`, which are the `n` that reach the round
loop, and every nonzero byte `r`, the divisor `n - 3` is nonzero and the
witness `2 + r % (n - 3)` lies in `[2, n - 2]`. -/
theorem witness_in_range (n r : Nat) (h5 : 5 ≤ n) (_hodd : n % 2 = 1) (h32 : n < 2 ^ 32)
    (_hr : 1 ≤ r ∧ r ≤ 255) :
    n - 3 ≠ 0 ∧ witness n r = 2 + r % (n - 3) ∧ 2 ≤ witness n r ∧ witness n r ≤ n - 2 :=
  ⟨by omega, witness_bounds n r h5 h32⟩

/-- C15, instance at `n = 5` and `r = 255`. -/
theorem witness_in_range_witness :
    (5 ≤ 5 ∧ 5 % 2 = 1 ∧ 5 < 2 ^ 32 ∧ 1 ≤ 255 ∧ 255 ≤ 255) ∧ 5 - 3 ≠ 0 ∧
      witness 5 255 = 2 + 255 % (5 - 3) ∧ 2 ≤ witness 5 255 ∧ witness 5 255 ≤ 5 - 2 :=
  ⟨by decide, witness_in_range 5 255 (by decide) (by decide) (by decide) (by decide)⟩

/-- C13.  For all `e` and `phi` with `2 ≤ e < phi < 2^31` and `gcd(e, phi) = 1`,
the private-exponent derivation of `generate_rsa_keys` yields `d` with
`0 ≤ d < phi` and `e * d ≡ 1 (mod phi)`; for `e = 17` and `phi = 3120` it
yields `d = 2753`. -/
theorem private_exponent_inverse (e phi : Nat) (h2 : 2 ≤ e) (he : e < phi) (hphi : phi < 2 ^ 31)
    (hg : gcd e phi = 1) :
    (∃ d, private_exponent e phi = some d ∧ 0 ≤ d ∧ d < phi ∧ e * d % phi = 1) ∧
      private_exponent 17 3120 = some 2753 := by
  rw [gcd_eq] at hg
  obtain ⟨d, h1, h3, h4⟩ := private_exponent_spec e phi h2 he hphi hg
  exact ⟨⟨d, h1, Nat.zero_le d, h3, h4⟩, by decide⟩

/-- C13, instance at `e = 17`, `phi = 3120`. -/
theorem private_exponent_inverse_witness :
    (2 ≤ 17 ∧ 17 < 3120 ∧ 3120 < 2 ^ 31 ∧ gcd 17 3120 = 1) ∧
      private_exponent 17 3120 = some 2753 :=
  ⟨by decide,
    (private_exponent_inverse 17 3120 (by decide) (by decide) (by decide) (by decide)).2⟩

/-- C16.  For every 32-bit `phi > 2` and every value `r` of `rand()`, the
candidate `2 + r % (phi - 2)` lies in `[2, phi - 1]`; and the public exponent
of any returned key pair satisfies `2 ≤ e ≤ phi - 1` and `gcd(e, phi) = 1`,
where `phi` is the 32-bit value computed from the selected `p` and `q`. -/
theorem public_exponent_range :
    (∀ phi r : Nat, 2 < phi → phi < 2 ^ 32 →
      2 ≤ exponent_candidate phi r ∧ exponent_candidate phi r ≤ phi - 1) ∧
    (∀ (cands : List Candidate) (rands : List Nat) (keys : rsa_keys),
      generate_rsa_keys cands rands = Run.returned keys →
      ∃ p rest q rest', find_p cands = some (p, rest) ∧ find_q p rest = some (q, rest') ∧
        2 ≤ keys.pub.e ∧ keys.pub.e ≤ toUInt32 (((p : Int) - 1) * ((q : Int) - 1)) - 1 ∧
        gcd keys.pub.e (toUInt32 (((p : Int) - 1) * ((q : Int) - 1))) = 1) := by
  constructor
  · intro phi r h2 h32
    exact (exponent_candidate_bounds phi r h2 h32).2
  · intro cands rands keys h
    obtain ⟨p, rest, q, rest', hp, hq, he, _, _, _⟩ := generate_rsa_keys_returned cands rands keys h
    obtain ⟨hp16, bp, hbp⟩ := find_p_some cands rest p hp
    obtain ⟨hq16, hne, bq, hbq⟩ := find_q_some p rest rest' q hq
    have hp2 := two_le_of_miller_rabin p 5 bp hbp
    have hq2 := two_le_of_miller_rabin q 5 bq hbq
    have hphi := phi_exact p q (by omega) (by omega) hp16 hq16
    obtain ⟨hm, ⟨r, hr⟩, hgcd⟩ := find_e_found _ _ _ he
    have hlt : (p - 1) * (q - 1) < 2 ^ 32 := by
      calc (p - 1) * (q - 1) ≤ (2 ^ 16 - 1) * (2 ^ 16 - 1) :=
            Nat.mul_le_mul (by omega) (by omega)
        _ < 2 ^ 32 := by norm_num
    have hge : 1 ≤ (p - 1) * (q - 1) := Nat.mul_pos (by omega) (by omega)
    rw [hphi] at hm hr hgcd
    have h2 : 2 < (p - 1) * (q - 1) := by
      rcases Nat.lt_or_ge 2 ((p - 1) * (q - 1)) with h | h
      · exact h
      · exfalso
        have h12 : (p - 1) * (q - 1) = 1 ∨ (p - 1) * (q - 1) = 2 := by omega
        rcases h12 with h1 | h2'
        · have hp1 : p - 1 = 1 := Nat.eq_one_of_mul_eq_one_right h1
          have hq1 : q - 1 = 1 := Nat.eq_one_of_mul_eq_one_left h1
          omega
        · rw [h2'] at hm
          exact hm (by norm_num)
    have hb := (exponent_candidate_bounds _ r h2 hlt).2
    rw [← hr] at hb
    exact ⟨p, rest, q, rest', hp, hq, hb.1, by rw [hphi]; exact hb.2, by rw [hphi]; exact hgcd⟩

/-- C16, instances at `phi = 3120`, `rand() = 15` and at the draws `61`, `53`,
`rand() = 15`. -/
theorem public_exponent_range_witness :
    (2 ≤ exponent_candidate 3120 15 ∧ exponent_candidate 3120 15 ≤ 3120 - 1) ∧
      ∃ p rest q rest', find_p [⟨61, fun _ => 1⟩, ⟨53, fun _ => 1⟩] = some (p, rest) ∧
        find_q p rest = some (q, rest') ∧ 2 ≤ 17 ∧
        17 ≤ toUInt32 (((p : Int) - 1) * ((q : Int) - 1)) - 1 ∧
        gcd 17 (toUInt32 (((p : Int) - 1) * ((q : Int) - 1))) = 1 :=
  ⟨public_exponent_range.1 3120 15 (by decide) (by decide),
    public_exponent_range.2 [⟨61, fun _ => 1⟩, ⟨53, fun _ => 1⟩] [15]
      { pub := { n := 3233, e := 17 }, priv := { n := 3233, d := 2753 } } (by decide)⟩

/-- C17.  For distinct primes `p, q ≤ 65535`, which the prime searches select
when drawn, other than the pair `{2, 3}`: `phi = (p - 1) * (q - 1)` satisfies
`phi - 2 ≥ 1`, the modulo by `phi - 2` is defined (no division by zero), and
`phi - 1` is an exponent in `[2, phi - 1]` coprime to `phi`.  For the pair
`{2, 3}`, `phi = 2` and the exponent selection divides by zero. -/
theorem exponent_search_defined (p q : Nat) (bp bq : Nat → Nat) (r : Nat) (rs : List Nat)
    (hp : p.Prime) (hq : q.Prime) (hp16 : p ≤ 65535) (hq16 : q ≤ 65535) (hne : p ≠ q) :
    find_p [⟨p, bp⟩, ⟨q, bq⟩] = some (p, [⟨q, bq⟩]) ∧
      find_q p [⟨q, bq⟩] = some (q, []) ∧
      toUInt32 (((p : Int) - 1) * ((q : Int) - 1)) = (p - 1) * (q - 1) ∧
      (¬ ((p = 2 ∧ q = 3) ∨ (p = 3 ∧ q = 2)) →
        1 ≤ (p - 1) * (q - 1) - 2 ∧
        find_e ((p - 1) * (q - 1)) (r :: rs) ≠ Search.division_by_zero ∧
        generate_rsa_keys [⟨p, bp⟩, ⟨q, bq⟩] (r :: rs) ≠ Run.division_by_zero ∧
        2 ≤ (p - 1) * (q - 1) - 1 ∧ gcd ((p - 1) * (q - 1) - 1) ((p - 1) * (q - 1)) = 1) ∧
      ((p = 2 ∧ q = 3) ∨ (p = 3 ∧ q = 2) →
        (p - 1) * (q - 1) = 2 ∧
        find_e ((p - 1) * (q - 1)) (r :: rs) = Search.division_by_zero ∧
        generate_rsa_keys [⟨p, bp⟩, ⟨q, bq⟩] (r :: rs) = Run.division_by_zero) := by
  have hp2 := hp.two_le
  have hq2 := hq.two_le
  have hfp := find_p_prime p bp [⟨q, bq⟩] hp (by omega)
  have hfq := find_q_prime p q bq [] hq (by omega) (Ne.symm hne)
  have hphi := phi_exact p q (by omega) (by omega) (by omega : p < 2 ^ 16) (by omega)
  have hlt : (p - 1) * (q - 1) < 2 ^ 32 := by
    calc (p - 1) * (q - 1) ≤ (2 ^ 16 - 1) * (2 ^ 16 - 1) :=
          Nat.mul_le_mul (by omega) (by omega)
      _ < 2 ^ 32 := by norm_num
  refine ⟨hfp, hfq, hphi, ?_, ?_⟩
  · intro h23
    have h4 : 4 ≤ (p - 1) * (q - 1) := by
      have hp4 : p ≠ 4 := fun h => by rw [h] at hp; exact absurd hp (by norm_num)
      have hq4 : q ≠ 4 := fun h => by rw [h] at hq; exact absurd hq (by norm_num)
      rcases Nat.lt_or_ge p 3 with h | h
      · have hp' : p - 1 = 1 := by omega
        have hq' : 4 ≤ q - 1 := by omega
        rw [hp', Nat.one_mul]; exact hq'
      · rcases Nat.lt_or_ge q 3 with h' | h'
        · have hq' : q - 1 = 1 := by omega
          have hp' : 4 ≤ p - 1 := by omega
          rw [hq', Nat.mul_one]; exact hp'
        · calc 4 = 2 * 2 := by norm_num
            _ ≤ (p - 1) * (q - 1) := Nat.mul_le_mul (by omega) (by omega)
    have hm : ((p - 1) * (q - 1) + 2 ^ 32 - 2) % 2 ^ 32 ≠ 0 := by omega
    refine ⟨by omega, find_e_ne_division_by_zero _ _ hm, ?_, by omega, ?_⟩
    · exact generate_rsa_keys_ne_division_by_zero _ _ _ _ p q hfp hfq
        (by rw [hphi]; omega) (by rw [hphi]; exact hlt)
    · rw [gcd_eq]
      have hsucc : (p - 1) * (q - 1) = ((p - 1) * (q - 1) - 1) + 1 := by omega
      have hco : Nat.Coprime ((p - 1) * (q - 1) - 1) (((p - 1) * (q - 1) - 1) + 1) := by simp
      rw [← hsucc] at hco
      exact hco
  · intro h23
    have hphi2 : (p - 1) * (q - 1) = 2 := by
      rcases h23 with ⟨h1, h2⟩ | ⟨h1, h2⟩ <;> subst h1 <;> subst h2 <;> rfl
    have hfe : find_e ((p - 1) * (q - 1)) (r :: rs) = Search.division_by_zero := by
      rw [hphi2, find_e_cons, if_pos (by norm_num)]
    refine ⟨hphi2, hfe, ?_⟩
    exact generate_rsa_keys_division_by_zero _ _ _ _ p q hfp hfq (by rw [hphi]; exact hfe)
/-- C17, instances at `(p, q) = (2, 5)` and `(p, q) = (2, 3)`. -/
theorem exponent_search_defined_witness :
    (Nat.Prime 2 ∧ Nat.Prime 3 ∧ Nat.Prime 5) ∧
      generate_rsa_keys [⟨2, fun _ => 1⟩, ⟨5, fun _ => 1⟩] [1] ≠ Run.division_by_zero ∧
      generate_rsa_keys [⟨2, fun _ => 1⟩, ⟨3, fun _ => 1⟩] [1] = Run.division_by_zero :=
  ⟨⟨by norm_num, by norm_num, by norm_num⟩,
    ((exponent_search_defined 2 5 (fun _ => 1) (fun _ => 1) 1 [] (by norm_num) (by norm_num)
      (by decide) (by decide) (by decide)).2.2.2.1 (by decide)).2.2.1,
    ((exponent_search_defined 2 3 (fun _ => 1) (fun _ => 1) 1 [] (by norm_num) (by norm_num)
      (by decide) (by decide) (by decide)).2.2.2.2 (by decide)).2.2⟩

/-- C18.  For all distinct primes `p, q` with `n = p * q < 2^32`, all 32-bit
`e, d` with `e * d ≡ 1 (mod (p - 1) * (q - 1))` and every 32-bit `m`,
`rsa_decrypt (rsa_encrypt m)` is `m mod n`; the result equals `m` if and only if
`m < n`, so a padded block, which is at least `0x02010000`, survives the round
trip only when `n` exceeds it. -/
theorem rsa_round_trip (p q e d m : Nat) (hp : p.Prime) (hq : q.Prime) (hne : p ≠ q)
    (hn : p * q < 2 ^ 32) (_he : e < 2 ^ 32) (_hd : d < 2 ^ 32)
    (hed : e * d ≡ 1 [MOD (p - 1) * (q - 1)]) (_hm : m < 2 ^ 32) :
    rsa_decrypt (rsa_encrypt m { n := p * q, e := e }) { n := p * q, d := d } = m % (p * q) ∧
      (rsa_decrypt (rsa_encrypt m { n := p * q, e := e }) { n := p * q, d := d } = m ↔
        m < p * q) ∧
      (∀ b r : Nat, b ≤ 255 → 1 ≤ r → r ≤ 255 →
        0x02010000 ≤ padding b r ∧
        (rsa_decrypt (rsa_encrypt (padding b r) { n := p * q, e := e }) { n := p * q, d := d }
          = padding b r ↔ padding b r < p * q)) := by
  have hpos : p * q ≠ 0 := Nat.mul_ne_zero hp.pos.ne' hq.pos.ne'
  refine ⟨rsa_decrypt_encrypt p q e d m hp hq hne hn hed, ?_, ?_⟩
  · rw [rsa_decrypt_encrypt p q e d m hp hq hne hn hed]
    exact Nat.mod_eq_iff_lt hpos
  · intro b r hb hr1 hr2
    constructor
    · rw [padding_eq b r (by omega) (by omega)]
      omega
    · rw [rsa_decrypt_encrypt p q e d _ hp hq hne hn hed]
      exact Nat.mod_eq_iff_lt hpos

/-- C18, instance at `p = 61`, `q = 53`, `e = 17`, `d = 2753`, `m = 0x027F0041`. -/
theorem rsa_round_trip_witness :
    (Nat.Prime 61 ∧ Nat.Prime 53 ∧ 17 * 2753 ≡ 1 [MOD (61 - 1) * (53 - 1)]) ∧
      rsa_decrypt (rsa_encrypt 0x027F0041 { n := 61 * 53, e := 17 }) { n := 61 * 53, d := 2753 }
        = 0x027F0041 % (61 * 53) :=
  ⟨⟨by norm_num, by norm_num, by decide⟩,
    (rsa_round_trip 61 53 17 2753 0x027F0041 (by norm_num) (by norm_num) (by decide)
      (by decide) (by decide) (by decide) (by decide) (by decide)).1⟩

/-- C19.  For every 32-bit base, exponent and modulus `≥ 1`, every intermediate
product of `pow_mod` (`result * b` and `b * b`) is below `2^64`, so `pow_mod`
with 64-bit wrapping products returns what exact integer arithmetic returns;
the loop has exited after 32 iterations; and for modulus `≥ 2` the value
returned is below the modulus, so the cast to 32 bits loses nothing. -/
theorem pow_mod_no_overflow (base exp mod : Nat) (_hbase : base < 2 ^ 32) (hexp : exp < 2 ^ 32)
    (hmod : 1 ≤ mod) (h32 : mod < 2 ^ 32) :
    (∀ x ∈ pow_mod_products exp 1 (base % mod) exp mod, x < 2 ^ 64) ∧
      pow_mod base exp mod = pow_mod_exact base exp mod ∧
      (∀ fuel, 32 ≤ fuel →
        pow_mod_loop fuel 1 (base % mod) exp mod = pow_mod_loop exp 1 (base % mod) exp mod) ∧
      (2 ≤ mod → pow_mod_loop exp 1 (base % mod) exp mod < mod ∧ pow_mod base exp mod < mod) := by
  have hb : base % mod < mod := Nat.mod_lt _ hmod
  have hloop : pow_mod_loop exp 1 (base % mod) exp mod < 2 ^ 32 ∧
      (2 ≤ mod → pow_mod_loop exp 1 (base % mod) exp mod < mod) := by
    by_cases h0 : exp = 0
    · subst h0
      rw [pow_mod_loop_exp_zero]
      exact ⟨by norm_num, fun h => by omega⟩
    · rw [pow_mod_loop_eq mod (by omega) exp 1 (base % mod) exp (Nat.le_refl _)
        (Nat.pos_of_ne_zero h0) (by norm_num) hb]
      have := Nat.mod_lt (1 * (base % mod) ^ exp) hmod
      exact ⟨by omega, fun _ => this⟩
  have hcast : pow_mod base exp mod = pow_mod_loop exp 1 (base % mod) exp mod := by
    unfold pow_mod
    exact Nat.mod_eq_of_lt hloop.1
  refine ⟨?_, ?_, ?_, ?_⟩
  · exact pow_mod_products_lt mod hmod (by omega) exp 1 (base % mod) exp (by norm_num)
      (by omega)
  · rw [hcast]
    exact pow_mod_loop_eq_exact mod hmod (by omega) exp 1 (base % mod) exp (by norm_num)
      (by omega)
  · intro fuel hfuel
    have h1 : exp < 2 ^ fuel :=
      lt_of_lt_of_le hexp (Nat.pow_le_pow_right (by norm_num) hfuel)
    exact pow_mod_loop_fuel mod fuel exp 1 (base % mod) exp h1 (Nat.lt_two_pow exp)
  · intro h2
    rw [hcast]
    exact ⟨hloop.2 h2, hloop.2 h2⟩

/-- C19, instance at base `4294967295`, exponent `4294967295`, modulus `4294967291`. -/
theorem pow_mod_no_overflow_witness :
    ((4294967295 : Nat) < 2 ^ 32 ∧ 1 ≤ 4294967291 ∧ (4294967291 : Nat) < 2 ^ 32) ∧
      pow_mod 4294967295 4294967295 4294967291
        = pow_mod_exact 4294967295 4294967295 4294967291 :=
  ⟨by decide,
    (pow_mod_no_overflow 4294967295 4294967295 4294967291 (by decide) (by decide) (by decide)
      (by decide)).2.1⟩

/-- C20.  For all signed 32-bit `a ≥ 0` and `b ≥ 0`, the recursion of
`extended_euclidean` ends within `|b|` levels, no intermediate value (`a % b`,
`a / b`, `(a / b) * v1`, `u1 - (a / b) * v1`) leaves the signed 32-bit range,
and the `int` computation returns the same `(g, u, v)` as the same recursion
over the unbounded integers. -/
theorem extended_euclidean_no_overflow (a b : Int) (ha : in_int a) (hb : in_int b)
    (h0a : 0 ≤ a) (h0b : 0 ≤ b) :
    (∀ x ∈ extended_euclidean_values b.natAbs a b, in_int x) ∧
      extended_euclidean a b = some (extended_euclidean_exact a b) ∧
      (∀ fuel, b.natAbs ≤ fuel → extended_euclidean_rec fuel a b = extended_euclidean a b) := by
  refine ⟨?_, ?_, ?_⟩
  · exact extended_euclidean_values_in_int b.natAbs a b h0a h0b ha hb (Nat.le_refl _)
  · obtain ⟨r, hr⟩ := extended_euclidean_rec_nonneg b.natAbs a b h0a h0b ha hb (Nat.le_refl _)
    unfold extended_euclidean extended_euclidean_exact
    rw [hr, extended_euclidean_rec_exact b.natAbs a b r hr]
  · intro fuel hfuel
    unfold extended_euclidean
    exact extended_euclidean_rec_fuel fuel b.natAbs a b hfuel (Nat.le_refl _)

/-- C20, instance at `(240, 46)`. -/
theorem extended_euclidean_no_overflow_witness :
    (in_int 240 ∧ in_int 46 ∧ (0 : Int) ≤ 240 ∧ (0 : Int) ≤ 46) ∧
      extended_euclidean 240 46 = some (extended_euclidean_exact 240 46) :=
  ⟨by decide,
    (extended_euclidean_no_overflow 240 46 (by decide) (by decide) (by decide)
      (by decide)).2.1⟩

/-- C12 (counterexample).  The number `12403 = 79 * 157` is an odd composite,
and a single round passes for 67 of the 255 nonzero bytes, more than a quarter
of them; already for `k = 1` more than `255 / 4` byte sequences are accepted. -/
theorem miller_rabin_liars_12403 :
    ¬ Nat.Prime 12403 ∧ 12403 % 2 = 1 ∧ 5 ≤ 12403 ∧ passing_bytes 12403 = 67 ∧
      ¬ (4 * passing_bytes 12403 ≤ 255) ∧
      ¬ (4 ^ 1 * (accepted_sequences 12403 1).card ≤ 255 ^ 1) := by
  have h := passing_bytes_12403
  refine ⟨by norm_num, by decide, by decide, h, ?_, ?_⟩
  · rw [h]
    decide
  · rw [card_accepted_sequences 12403 1 (by decide) (by decide), h]
    decide

/-- C12 (amended).  For every odd composite `n ≥ 5`, `miller_rabin n k` returns
true exactly when each of its `k` rounds passes on its own byte; hence, of the
`255 ^ k` sequences of `k` nonzero bytes, exactly `L ^ k` are accepted, where
`L` is the number of the 255 byte values on which a single round passes:
with independent uniform bytes `miller_rabin n k` returns true with
probability `(L / 255) ^ k`. -/
theorem miller_rabin_acceptance_count (n k : Nat) (h5 : 5 ≤ n) (hodd : n % 2 = 1)
    (_hcomp : ¬ n.Prime) :
    (∀ bytes : Nat → Nat,
      miller_rabin n (k : Int) bytes = true ↔ ∀ i, i < k → round_passes n (bytes i) = true) ∧
      (accepted_sequences n k).card = passing_bytes n ^ k ∧
      Fintype.card (Fin k → Fin 255) = 255 ^ k ∧ passing_bytes n ≤ 255 := by
  refine ⟨fun bytes => miller_rabin_iff_rounds n k bytes h5 hodd,
    card_accepted_sequences n k h5 hodd,
    by rw [Fintype.card_fun, Fintype.card_fin, Fintype.card_fin], ?_⟩
  unfold passing_bytes
  calc ((List.range 255).filter (fun r => round_passes n (r + 1))).length
      ≤ (List.range 255).length := List.length_filter_le _ _
    _ = 255 := List.length_range 255

/-- C12 (amended), instance at `n = 9`, `k = 2`. -/
theorem miller_rabin_acceptance_count_witness :
    (5 ≤ 9 ∧ 9 % 2 = 1 ∧ ¬ Nat.Prime 9) ∧
      (accepted_sequences 9 2).card = passing_bytes 9 ^ 2 :=
  ⟨⟨by decide, by decide, by norm_num⟩,
    (miller_rabin_acceptance_count 9 2 (by decide) (by decide) (by norm_num)).2.1⟩

end Rsa32
